import Mathlib

/-!
Verification of the streaming Breakpad symbol-file parser (`src/lib.rs`).

The parser is a resumable state machine fed byte chunks.  We embed it
shallowly: bytes are `Nat` (values 0..255), the 4-slot `u32` row is a
`List Nat` of length 4 whose entries are kept below `2^32` by explicit
`% 2^32` wrapping, and every operation that can panic in Rust (indexing
`row[row_pos]` out of bounds, or the unchecked `transmute` in
`State::next` evaluated on the last discriminant) is modelled in
`Option`, `none` meaning a panic / undefined behaviour.

The `while offset < chunk.len()` dispatch loop of `Parser::parse` is
modelled with an explicit fuel parameter (`parseLoop`); the fuel
`3 * chunk.length + 4` is proved sufficient below (`parseLoop_total`),
so the fuel is an artifact of the embedding, not a semantic bound.
-/

namespace Breakpad

/-- Events delivered to the sink (`Api`) callbacks, in call order. -/
inductive Event where
  | onLine (addr size line fileIndex : Nat)
  | onFunc (addr size params : Nat)
  | onFile (index : Nat)
  | onPublic (addr params : Nat)
  | onStrValue (value : List Nat)
  deriving DecidableEq, Repr

/-- The `State` enum of the Rust source (`repr(u8)`, discriminants 0..22). -/
inductive State where
  | start
  | lineHexAddr
  | lineHexSize
  | lineDecLine
  | lineDecFile
  | lineEnd
  | skip
  | funcOrFile
  | func
  | funcHexAddr
  | funcHexSize
  | funcHexParams
  | funcStrName
  | funcEnd
  | file
  | fileDecIndex
  | fileStrName
  | fileEnd
  | public
  | publicHexAddr
  | publicHexParams
  | publicStrName
  | publicEnd
  deriving DecidableEq, Repr, Fintype

/-- `State::next`: `transmute(self as u8 + 1)`.  On `publicEnd`
(discriminant 22) the transmute produces the invalid discriminant 23,
which is undefined behaviour, modelled as `none`. -/
def State.next : State → Option State
  | .start => some .lineHexAddr
  | .lineHexAddr => some .lineHexSize
  | .lineHexSize => some .lineDecLine
  | .lineDecLine => some .lineDecFile
  | .lineDecFile => some .lineEnd
  | .lineEnd => some .skip
  | .skip => some .funcOrFile
  | .funcOrFile => some .func
  | .func => some .funcHexAddr
  | .funcHexAddr => some .funcHexSize
  | .funcHexSize => some .funcHexParams
  | .funcHexParams => some .funcStrName
  | .funcStrName => some .funcEnd
  | .funcEnd => some .file
  | .file => some .fileDecIndex
  | .fileDecIndex => some .fileStrName
  | .fileStrName => some .fileEnd
  | .fileEnd => some .public
  | .public => some .publicHexAddr
  | .publicHexAddr => some .publicHexParams
  | .publicHexParams => some .publicStrName
  | .publicStrName => some .publicEnd
  | .publicEnd => none

/-- `2^32`, the modulus of the wrapping `u32` arithmetic. -/
def M32 : Nat := 4294967296

/-- `dec_value`: `DEC_TABLE` maps `'0'..'9'` to `0..9`, everything else
to the sentinel (here `none`). -/
def decValue (ch : Nat) : Option Nat :=
  if 48 ≤ ch ∧ ch ≤ 57 then some (ch - 48) else none

/-- `hex_value`: `HEX_TABLE` is `DEC_TABLE` extended with
`'a'..'f' ↦ 10..15` (lower-case only). -/
def hexValue (ch : Nat) : Option Nat :=
  if 48 ≤ ch ∧ ch ≤ 57 then some (ch - 48)
  else if 97 ≤ ch ∧ ch ≤ 102 then some (ch - 97 + 10) else none

/-- The parser struct: `state`, `row: [u32; 4]`, `row_pos: u8`.
The sink is externalised: operations return the list of events fired. -/
structure Parser where
  state : State
  row : List Nat
  rowPos : Nat
  deriving DecidableEq, Repr

/-- `Parser::new`. -/
def Parser.new : Parser := ⟨State.start, [0, 0, 0, 0], 0⟩

/-- The `match` of `parse_start` on a non-hex first byte:
`b'F' => FuncOrFile`, `b'P' => Public`, `_ => Skip` (70 = `'F'`,
80 = `'P'`). -/
def classifyStart (ch : Nat) : State :=
  if ch = 70 then State.funcOrFile
  else if ch = 80 then State.public
  else State.skip

/-- The `match` of `parse_func_or_file`: `b'U' => Func`,
`b'I' => File`, `_ => Skip` (85 = `'U'`, 73 = `'I'`). -/
def classifyFuncOrFile (ch : Nat) : State :=
  if ch = 85 then State.func
  else if ch = 73 then State.file
  else State.skip

/-- `Parser::parse_start`: classify the first byte of a line.  The
chunk indexing `chunk[offset]` is in `Option` (it cannot fail when
called from the dispatch loop, whose guard gives `offset < len`). -/
def parseStart (p : Parser) (chunk : List Nat) (offset : Nat) :
    Option (Parser × Nat) := do
  let ch ← chunk.get? offset
  if (hexValue ch).isSome then
    some ({ p with state := State.lineHexAddr }, offset)
  else
    some ({ p with state := classifyStart ch }, offset + 1)

/-- `Parser::parse_func_or_file`: classify the byte after `'F'`. -/
def parseFuncOrFile (p : Parser) (chunk : List Nat) (offset : Nat) :
    Option (Parser × Nat) := do
  let ch ← chunk.get? offset
  some ({ p with state := classifyFuncOrFile ch }, offset + 1)

/-- The `for i in offset..chunk.len()` loop of `Parser::parse_hex`,
with the running `int_value` accumulator, written with a structural
count of the remaining loop iterations (`chunk.length - i`, supplied by
`parseHexGo`) so that concrete runs compute inside the kernel; when the
count is positive, `i` is in bounds, so `getD` reads `chunk[i]`.  On
the first non-hex byte it advances cursor and state and consumes the
byte - it does NOT write the accumulator back into the row; the write
happens only when the chunk is exhausted mid-token. -/
def parseHexGoF (p : Parser) (chunk : List Nat) :
    Nat → Nat → Nat → Option (Parser × Nat)
  | 0, _, intValue =>
      some ({ p with row := p.row.set p.rowPos intValue }, chunk.length)
  | n + 1, i, intValue =>
      match hexValue (chunk.getD i 0) with
      | some d => parseHexGoF p chunk n (i + 1) ((intValue * 16 + d) % M32)
      | none => do
          let s ← p.state.next
          some ({ p with rowPos := p.rowPos + 1, state := s }, i + 1)

/-- The `parse_hex` scan from absolute position `i`. -/
def parseHexGo (p : Parser) (chunk : List Nat) (i intValue : Nat) :
    Option (Parser × Nat) :=
  parseHexGoF p chunk (chunk.length - i) i intValue

/-- `Parser::parse_hex`: reads `row[row_pos]` (a panic if the cursor is
out of bounds, hence `Option`), then scans. -/
def parseHex (p : Parser) (chunk : List Nat) (offset : Nat) :
    Option (Parser × Nat) := do
  let v ← p.row.get? p.rowPos
  parseHexGo p chunk offset v

/-- The loop of `Parser::parse_dec` (structural iteration count as in
`parseHexGoF`).  Unlike `parse_hex`, the delimiter branch writes the
accumulator into the row before advancing. -/
def parseDecGoF (p : Parser) (chunk : List Nat) :
    Nat → Nat → Nat → Option (Parser × Nat)
  | 0, _, intValue =>
      some ({ p with row := p.row.set p.rowPos intValue }, chunk.length)
  | n + 1, i, intValue =>
      match decValue (chunk.getD i 0) with
      | some d => parseDecGoF p chunk n (i + 1) ((intValue * 10 + d) % M32)
      | none => do
          let s ← p.state.next
          some ({ p with row := p.row.set p.rowPos intValue,
                         rowPos := p.rowPos + 1, state := s }, i + 1)

/-- The `parse_dec` scan from absolute position `i`. -/
def parseDecGo (p : Parser) (chunk : List Nat) (i intValue : Nat) :
    Option (Parser × Nat) :=
  parseDecGoF p chunk (chunk.length - i) i intValue

/-- `Parser::parse_dec`. -/
def parseDec (p : Parser) (chunk : List Nat) (offset : Nat) :
    Option (Parser × Nat) := do
  let v ← p.row.get? p.rowPos
  parseDecGo p chunk offset v

/-- `&chunk[a..b]` as a list. -/
def slice (chunk : List Nat) (a b : Nat) : List Nat :=
  (chunk.drop a).take (b - a)

/-- The loop of `Parser::parse_str` (structural iteration count as in
`parseHexGoF`): scan from `i` for `'\n'` (10); on finding it at `i`,
emit `&chunk[offset..i]` and consume the newline; if the chunk ends
first, emit `&chunk[offset..]` and stay in this state. -/
def parseStrGoF (p : Parser) (chunk : List Nat) (offset : Nat) :
    Nat → Nat → Option (Parser × List Event × Nat)
  | 0, _ =>
      some (p, [Event.onStrValue (slice chunk offset chunk.length)],
            chunk.length)
  | n + 1, i =>
      if chunk.getD i 0 = 10 then do
        let s ← p.state.next
        some ({ p with state := s },
              [Event.onStrValue (slice chunk offset i)], i + 1)
      else
        parseStrGoF p chunk offset n (i + 1)

/-- The `parse_str` scan from absolute position `i`. -/
def parseStrGo (p : Parser) (chunk : List Nat) (offset i : Nat) :
    Option (Parser × List Event × Nat) :=
  parseStrGoF p chunk offset (chunk.length - i) i

/-- `Parser::parse_str`. -/
def parseStr (p : Parser) (chunk : List Nat) (offset : Nat) :
    Option (Parser × List Event × Nat) :=
  parseStrGo p chunk offset offset

/-- `Parser::skip_until_digit` loop (structural iteration count as in
`parseHexGoF`): discard bytes until a (lower-case) hex digit, then
advance the state WITHOUT consuming the digit. -/
def skipUntilDigitF (p : Parser) (chunk : List Nat) :
    Nat → Nat → Option (Parser × Nat)
  | 0, _ => some (p, chunk.length)
  | n + 1, i =>
      if (hexValue (chunk.getD i 0)).isSome then do
        let s ← p.state.next
        some ({ p with state := s }, i)
      else
        skipUntilDigitF p chunk n (i + 1)

/-- The `skip_until_digit` scan from absolute position `i`. -/
def skipUntilDigit (p : Parser) (chunk : List Nat) (i : Nat) :
    Option (Parser × Nat) :=
  skipUntilDigitF p chunk (chunk.length - i) i

/-- `Parser::skip_past_newline` loop (structural iteration count as in
`parseHexGoF`): discard bytes up to and including the next `'\n'`,
then reset to `Start`.  Total: no indexing, no transmute. -/
def skipPastNewlineF (p : Parser) (chunk : List Nat) :
    Nat → Nat → Parser × Nat
  | 0, _ => (p, chunk.length)
  | n + 1, i =>
      if chunk.getD i 0 = 10 then ({ p with state := State.start }, i + 1)
      else skipPastNewlineF p chunk n (i + 1)

/-- The `skip_past_newline` scan from absolute position `i`. -/
def skipPastNewline (p : Parser) (chunk : List Nat) (i : Nat) :
    Parser × Nat :=
  skipPastNewlineF p chunk (chunk.length - i) i

/-- `Parser::on_end`: reset cursor, row and state. -/
def onEnd (p : Parser) : Parser :=
  { p with rowPos := 0, row := [0, 0, 0, 0], state := State.start }

/-- `row[i]` for the constant indices 0..3 used by the completion
callbacks (always in bounds on the 4-element row). -/
def rowGet (row : List Nat) (i : Nat) : Nat := row.getD i 0

/-- `Parser::on_line_end`: note the source calls `on_end()` FIRST and
only then reads `self.row`, so the callback sees the zeroed row. -/
def onLineEnd (p : Parser) : Parser × List Event :=
  let q := onEnd p
  (q, [Event.onLine (rowGet q.row 0) (rowGet q.row 1)
        (rowGet q.row 2) (rowGet q.row 3)])

/-- `Parser::on_func_end` (same reset-before-read order). -/
def onFuncEnd (p : Parser) : Parser × List Event :=
  let q := onEnd p
  (q, [Event.onFunc (rowGet q.row 0) (rowGet q.row 1) (rowGet q.row 2)])

/-- `Parser::on_file_end`. -/
def onFileEnd (p : Parser) : Parser × List Event :=
  let q := onEnd p
  (q, [Event.onFile (rowGet q.row 0)])

/-- `Parser::on_public_end`. -/
def onPublicEnd (p : Parser) : Parser × List Event :=
  let q := onEnd p
  (q, [Event.onPublic (rowGet q.row 0) (rowGet q.row 1)])

/-- The `while offset < chunk.len()` dispatch loop of `Parser::parse`,
with fuel (one unit per loop iteration). -/
def parseLoop : Nat → Parser → List Nat → Nat → Option (Parser × List Event)
  | 0, _, _, _ => none
  | fuel + 1, p, chunk, offset =>
    if offset < chunk.length then
      match p.state with
      | State.start =>
          match parseStart p chunk offset with
          | none => none
          | some (p1, o1) => parseLoop fuel p1 chunk o1
      | State.funcOrFile =>
          match parseFuncOrFile p chunk offset with
          | none => none
          | some (p1, o1) => parseLoop fuel p1 chunk o1
      | State.lineHexAddr | State.lineHexSize | State.funcHexAddr
      | State.funcHexSize | State.funcHexParams | State.publicHexAddr
      | State.publicHexParams =>
          match parseHex p chunk offset with
          | none => none
          | some (p1, o1) => parseLoop fuel p1 chunk o1
      | State.lineDecLine | State.lineDecFile | State.fileDecIndex =>
          match parseDec p chunk offset with
          | none => none
          | some (p1, o1) => parseLoop fuel p1 chunk o1
      | State.funcStrName | State.fileStrName | State.publicStrName =>
          match parseStr p chunk offset with
          | none => none
          | some (p1, evs, o1) =>
              match parseLoop fuel p1 chunk o1 with
              | none => none
              | some (pf, evs2) => some (pf, evs ++ evs2)
      | State.func | State.file | State.public =>
          match skipUntilDigit p chunk offset with
          | none => none
          | some (p1, o1) => parseLoop fuel p1 chunk o1
      | State.lineEnd =>
          let r := onLineEnd p
          match parseLoop fuel r.1 chunk offset with
          | none => none
          | some (pf, evs2) => some (pf, r.2 ++ evs2)
      | State.funcEnd =>
          let r := onFuncEnd p
          match parseLoop fuel r.1 chunk offset with
          | none => none
          | some (pf, evs2) => some (pf, r.2 ++ evs2)
      | State.fileEnd =>
          let r := onFileEnd p
          match parseLoop fuel r.1 chunk offset with
          | none => none
          | some (pf, evs2) => some (pf, r.2 ++ evs2)
      | State.publicEnd =>
          let r := onPublicEnd p
          match parseLoop fuel r.1 chunk offset with
          | none => none
          | some (pf, evs2) => some (pf, r.2 ++ evs2)
      | State.skip =>
          let r := skipPastNewline p chunk offset
          parseLoop fuel r.1 chunk r.2
    else
      some (p, [])

/-- `Parser::parse(chunk)`.  The fuel `3 * len + 4` is sufficient
(each iteration either consumes a byte or takes a strictly
rank-decreasing silent transition, of which at most two can occur in a
row); sufficiency is proved in `parseLoop_total`. -/
def Parser.parse (p : Parser) (chunk : List Nat) :
    Option (Parser × List Event) :=
  parseLoop (3 * chunk.length + 4) p chunk 0

/-- `Parser::finish`. -/
def Parser.finish (p : Parser) : Parser × List Event :=
  match p.state with
  | State.lineEnd => onLineEnd p
  | State.funcEnd => onFuncEnd p
  | State.fileEnd => onFileEnd p
  | State.publicEnd => onPublicEnd p
  | _ => (p, [])

/-- Feed a list of chunks in order. -/
def runParses (p : Parser) : List (List Nat) → Option (Parser × List Event)
  | [] => some (p, [])
  | c :: cs =>
      match p.parse c with
      | none => none
      | some (p1, e1) =>
          match runParses p1 cs with
          | none => none
          | some (p2, e2) => some (p2, e1 ++ e2)

/-- Feed chunks, then `finish()`; the full event trace. -/
def runFullEvents (p : Parser) (chunks : List (List Nat)) :
    Option (List Event) :=
  match runParses p chunks with
  | none => none
  | some (p1, e1) => some (e1 ++ (p1.finish).2)

/-- One external call to the parser object. -/
inductive Call where
  | parse (chunk : List Nat)
  | finish
  deriving DecidableEq, Repr

/-- Run an arbitrary sequence of `parse`/`finish` calls. -/
def runCalls (p : Parser) : List Call → Option (Parser × List Event)
  | [] => some (p, [])
  | Call.parse c :: rest =>
      match p.parse c with
      | none => none
      | some (p1, e1) =>
          match runCalls p1 rest with
          | none => none
          | some (p2, e2) => some (p2, e1 ++ e2)
  | Call.finish :: rest =>
      let r := p.finish
      match runCalls r.1 rest with
      | none => none
      | some (p2, e2) => some (p2, r.2 ++ e2)

/-- ASCII bytes of a string literal. -/
def bytes (s : String) : List Nat := s.toList.map Char.toNat

/-! ## A byte-at-a-time reference machine

`consume p b` is the effect of `Parser::parse` on a single-byte chunk
`[b]`, written out state by state.  It is the yardstick used to prove
chunk-boundary invariance: feeding any chunking of an input is related
to folding `consume` over the bytes. -/

/-- Single-byte step for the states that always consume their byte
(hex/dec/string scanners, `FuncOrFile`, `Skip`).  The remaining states
are handled by `consumeMid`/`consume` and never reach this function. -/
def consumeRun (p : Parser) (b : Nat) : Option (Parser × List Event) :=
  match p.state with
  | State.lineHexAddr | State.lineHexSize | State.funcHexAddr
  | State.funcHexSize | State.funcHexParams | State.publicHexAddr
  | State.publicHexParams => do
      let v ← p.row.get? p.rowPos
      match hexValue b with
      | some d =>
          some ({ p with row := p.row.set p.rowPos ((v * 16 + d) % M32) }, [])
      | none => do
          let s ← p.state.next
          some ({ p with rowPos := p.rowPos + 1, state := s }, [])
  | State.lineDecLine | State.lineDecFile | State.fileDecIndex => do
      let v ← p.row.get? p.rowPos
      match decValue b with
      | some d =>
          some ({ p with row := p.row.set p.rowPos ((v * 10 + d) % M32) }, [])
      | none => do
          let s ← p.state.next
          some ({ p with row := p.row.set p.rowPos v,
                         rowPos := p.rowPos + 1, state := s }, [])
  | State.funcStrName | State.fileStrName | State.publicStrName =>
      if b = 10 then do
        let s ← p.state.next
        some ({ p with state := s }, [Event.onStrValue []])
      else
        some (p, [Event.onStrValue [b]])
  | State.funcOrFile =>
      some ({ p with state := classifyFuncOrFile b }, [])
  | State.skip =>
      if b = 10 then some ({ p with state := State.start }, [])
      else some (p, [])
  | _ => some (p, [])

/-- Single-byte step including the silent reclassification transitions
(`Start`, and the bare `Func`/`File`/`Public` keyword-trailer states)
that may hand the same byte over to a scanner. -/
def consumeMid (p : Parser) (b : Nat) : Option (Parser × List Event) :=
  match p.state with
  | State.start =>
      if (hexValue b).isSome then
        consumeRun { p with state := State.lineHexAddr } b
      else
        some ({ p with state := classifyStart b }, [])
  | State.func =>
      if (hexValue b).isSome then
        consumeRun { p with state := State.funcHexAddr } b
      else some (p, [])
  | State.file =>
      if (hexValue b).isSome then
        consumeRun { p with state := State.fileDecIndex } b
      else some (p, [])
  | State.public =>
      if (hexValue b).isSome then
        consumeRun { p with state := State.publicHexAddr } b
      else some (p, [])
  | _ => consumeRun p b

/-- Full single-byte step: a pending `*End` state first fires its
completion callback (resetting the parser), then the byte is consumed
from `Start`. -/
def consume (p : Parser) (b : Nat) : Option (Parser × List Event) :=
  match p.state with
  | State.lineEnd =>
      let r := onLineEnd p
      (fun s => (s.1, r.2 ++ s.2)) <$> consumeMid r.1 b
  | State.funcEnd =>
      let r := onFuncEnd p
      (fun s => (s.1, r.2 ++ s.2)) <$> consumeMid r.1 b
  | State.fileEnd =>
      let r := onFileEnd p
      (fun s => (s.1, r.2 ++ s.2)) <$> consumeMid r.1 b
  | State.publicEnd =>
      let r := onPublicEnd p
      (fun s => (s.1, r.2 ++ s.2)) <$> consumeMid r.1 b
  | _ => consumeMid p b

/-- Fold `consume` over a byte list. -/
def runB (p : Parser) : List Nat → Option (Parser × List Event)
  | [] => some (p, [])
  | b :: bs =>
      match consume p b with
      | none => none
      | some (p1, e1) =>
          match runB p1 bs with
          | none => none
          | some (p2, e2) => some (p2, e1 ++ e2)

/-! ## Normalised event traces

Two chunkings of the same input deliver the same events except that a
name may be split into different `onStrValue` fragments; `normalize`
coalesces maximal runs of adjacent fragments, yielding the canonical
trace. -/

/-- Merge a string fragment into the head of an event list. -/
def mergeHead (s : List Nat) : List Event → List Event
  | Event.onStrValue t :: r => Event.onStrValue (s ++ t) :: r
  | r => Event.onStrValue s :: r

/-- Coalesce adjacent `onStrValue` events. -/
def normalize : List Event → List Event
  | [] => []
  | Event.onStrValue s :: rest => mergeHead s (normalize rest)
  | e :: rest => e :: normalize rest

/-! ## Invariants -/

/-- The value of `row_pos` determined by the state (proved invariant
along every execution). -/
def posOf : State → Nat
  | State.start => 0
  | State.lineHexAddr => 0
  | State.lineHexSize => 1
  | State.lineDecLine => 2
  | State.lineDecFile => 3
  | State.lineEnd => 4
  | State.skip => 0
  | State.funcOrFile => 0
  | State.func => 0
  | State.funcHexAddr => 0
  | State.funcHexSize => 1
  | State.funcHexParams => 2
  | State.funcStrName => 3
  | State.funcEnd => 3
  | State.file => 0
  | State.fileDecIndex => 0
  | State.fileStrName => 1
  | State.fileEnd => 1
  | State.public => 0
  | State.publicHexAddr => 0
  | State.publicHexParams => 1
  | State.publicStrName => 2
  | State.publicEnd => 2

/-- Reachability invariant of the parser struct: the row keeps its four
slots and the cursor is the one dictated by the state.  In particular
the cursor is at most 3 whenever a hex/dec scanner indexes the row. -/
def Inv (p : Parser) : Prop :=
  p.row.length = 4 ∧ p.rowPos = posOf p.state

/-- Relation between two parsers that behave identically except for the
(event-wise dead) row contents. -/
def Rel (p q : Parser) : Prop :=
  p.state = q.state ∧ p.rowPos = q.rowPos ∧
  p.row.length = 4 ∧ q.row.length = 4

/-- Rank of a state: number of successive silent (non-consuming)
dispatches possible from it before a byte is consumed. -/
def rank : State → Nat
  | State.lineEnd | State.funcEnd | State.fileEnd | State.publicEnd => 3
  | State.start | State.func | State.file | State.public => 2
  | _ => 1

instance : DecidablePred Inv := fun p =>
  decidable_of_iff (p.row.length = 4 ∧ p.rowPos = posOf p.state) Iff.rfl

instance (p q : Parser) : Decidable (Rel p q) :=
  decidable_of_iff (p.state = q.state ∧ p.rowPos = q.rowPos ∧
    p.row.length = 4 ∧ q.row.length = 4) Iff.rfl

/-- States dispatched to `parse_hex`. -/
def isHexSt : State → Bool
  | State.lineHexAddr | State.lineHexSize | State.funcHexAddr
  | State.funcHexSize | State.funcHexParams | State.publicHexAddr
  | State.publicHexParams => true
  | _ => false

/-- States dispatched to `parse_dec`. -/
def isDecSt : State → Bool
  | State.lineDecLine | State.lineDecFile | State.fileDecIndex => true
  | _ => false

/-- States dispatched to `parse_str`. -/
def isStrSt : State → Bool
  | State.funcStrName | State.fileStrName | State.publicStrName => true
  | _ => false

/-- Bare keyword states dispatched to `skip_until_digit`. -/
def isKwSt : State → Bool
  | State.func | State.file | State.public => true
  | _ => false

/-- The four pending-completion states. -/
def isEndSt : State → Bool
  | State.lineEnd | State.funcEnd | State.fileEnd | State.publicEnd => true
  | _ => false

/-- Prepend a fragment to a singleton string-fragment event list
(identity on anything else); used to relate `parse_str` runs started at
different fragment origins. -/
def mapFrag (u : List Nat) : List Event → List Event
  | [Event.onStrValue t] => [Event.onStrValue (u ++ t)]
  | evs => evs

/-- The inductive hypothesis of the bridge theorem: from related
parsers, the dispatch loop on the remaining chunk and the byte machine
on the remaining bytes succeed together, stay related, and produce
traces with the same normalisation. -/
def BridgeIH (fuel : Nat) : Prop :=
  ∀ (p q : Parser) (c : List Nat) (offset : Nat),
    Rel p q → Inv p → 3 * (c.length - offset) + rank p.state < fuel →
    ∃ p1 e q1 f, parseLoop fuel p c offset = some (p1, e) ∧
      runB q (c.drop offset) = some (q1, f) ∧ Rel p1 q1 ∧ Inv p1 ∧
      normalize e = normalize f

/-- The `repr(u8)` discriminant of each `State` value. -/
def stateOrd : State → Nat
  | State.start => 0
  | State.lineHexAddr => 1
  | State.lineHexSize => 2
  | State.lineDecLine => 3
  | State.lineDecFile => 4
  | State.lineEnd => 5
  | State.skip => 6
  | State.funcOrFile => 7
  | State.func => 8
  | State.funcHexAddr => 9
  | State.funcHexSize => 10
  | State.funcHexParams => 11
  | State.funcStrName => 12
  | State.funcEnd => 13
  | State.file => 14
  | State.fileDecIndex => 15
  | State.fileStrName => 16
  | State.fileEnd => 17
  | State.public => 18
  | State.publicHexAddr => 19
  | State.publicHexParams => 20
  | State.publicStrName => 21
  | State.publicEnd => 22

/-- The natural number denoted by a decimal ASCII digit string. -/
def decNat (ds : List Nat) : Nat := ds.foldl (fun a d => a * 10 + (d - 48)) 0

/-- Decimal fold with an arbitrary initial accumulator (no wrapping). -/
def foldDec (v : Nat) (ds : List Nat) : Nat :=
  ds.foldl (fun a d => a * 10 + (d - 48)) v

/-- Decimal fold with per-step `u32` wrapping, as the scanner performs. -/
def foldDecM (v : Nat) (ds : List Nat) : Nat :=
  ds.foldl (fun a d => (a * 10 + (d - 48)) % M32) v

/-- A first byte that `parse_start` routes to `Skip`: not a hex digit,
not `'F'` (70), not `'P'` (80). -/
def badFirst (b : Nat) : Bool :=
  (hexValue b).isNone && b != 70 && b != 80

/-- A line body starting `'F'` whose second byte is neither `'U'` (85)
nor `'I'` (73), routed to `Skip` by `parse_func_or_file`. -/
def badSecond : List Nat → Bool
  | b1 :: b2 :: _ => b1 == 70 && b2 != 85 && b2 != 73
  | _ => false

/-- A non-empty newline-free line body that the classification discards
(either kind of unrecognized line). -/
def badLineB : List Nat → Bool
  | [] => false
  | b :: rest =>
      (b :: rest).all (fun x => x != 10) && (badFirst b || badSecond (b :: rest))

/-- Scan an event trace; the `Bool` says whether the position is inside
a fragment run.  `none` marks a violation (`onLine` directly after a
fragment run). -/
def scanM : Bool → List Event → Option Bool
  | m, [] => some m
  | _, Event.onStrValue _ :: r => scanM true r
  | m, Event.onLine _ _ _ _ :: r => if m then none else scanM false r
  | _, Event.onFunc _ _ _ :: r => scanM false r
  | _, Event.onFile _ :: r => scanM false r
  | _, Event.onPublic _ _ :: r => scanM false r

/-- A trace in which every fragment run is terminated by a named
record's completion callback (or by the end of the trace). -/
def fragOrderOK (E : List Event) : Bool := (scanM false E).isSome

/-- Scanner modes compatible with a parser state: inside a name, or
with a named record's completion pending, the trace may end in an open
fragment run; everywhere else it must not. -/
def modeOK : State → Bool → Bool
  | State.funcStrName, _ => true
  | State.fileStrName, _ => true
  | State.publicStrName, _ => true
  | State.funcEnd, _ => true
  | State.fileEnd, _ => true
  | State.publicEnd, _ => true
  | _, m => !m

lemma rank_le_three : ∀ s : State, rank s ≤ 3 := by decide

lemma posOf_le_three_of_hex : ∀ s : State, isHexSt s = true → posOf s ≤ 3 := by
  decide

lemma posOf_le_three_of_dec : ∀ s : State, isDecSt s = true → posOf s ≤ 3 := by
  decide

lemma hexSt_next : ∀ s : State, isHexSt s = true →
    ∃ s', State.next s = some s' ∧ posOf s' = posOf s + 1 ∧ rank s' = 1 := by
  decide

lemma decSt_next : ∀ s : State, isDecSt s = true →
    ∃ s', State.next s = some s' ∧ posOf s' = posOf s + 1 ∧ rank s' ≤ 3 := by
  decide

lemma strSt_next : ∀ s : State, isStrSt s = true →
    ∃ s', State.next s = some s' ∧ posOf s' = posOf s ∧ isEndSt s' = true := by
  decide

lemma kwSt_next : ∀ s : State, isKwSt s = true →
    ∃ s', State.next s = some s' ∧ posOf s' = posOf s ∧ rank s' = 1 := by
  decide

lemma posOf_classifyStart (ch : Nat) : posOf (classifyStart ch) = 0 := by
  unfold classifyStart
  split
  · rfl
  split <;> rfl

lemma posOf_classifyFuncOrFile (ch : Nat) :
    posOf (classifyFuncOrFile ch) = 0 := by
  unfold classifyFuncOrFile
  split
  · rfl
  split <;> rfl

lemma length_set_row (l : List Nat) (i v : Nat) :
    (l.set i v).length = l.length := List.length_set l i v

lemma getD_eq_get (l : List Nat) {i : Nat} (h : i < l.length) :
    l.getD i 0 = l.get ⟨i, h⟩ := by
  rw [show l.getD i 0 = (l.get? i).getD 0 from rfl, List.get?_eq_get h]
  rfl

lemma parseHexGo_neg {p : Parser} {chunk : List Nat} {i : Nat}
    (h : ¬ i < chunk.length) (v : Nat) :
    parseHexGo p chunk i v =
      some ({ p with row := p.row.set p.rowPos v }, chunk.length) := by
  unfold parseHexGo
  rw [Nat.sub_eq_zero_of_le (by omega)]
  rfl

lemma parseHexGo_pos {p : Parser} {chunk : List Nat} {i : Nat}
    (h : i < chunk.length) (v : Nat) :
    parseHexGo p chunk i v =
      (match hexValue (chunk.get ⟨i, h⟩) with
      | some d => parseHexGo p chunk (i + 1) ((v * 16 + d) % M32)
      | none => do
          let s ← p.state.next
          some ({ p with rowPos := p.rowPos + 1, state := s }, i + 1)) := by
  unfold parseHexGo
  obtain ⟨n, hn⟩ : ∃ n, chunk.length - i = n + 1 :=
    ⟨chunk.length - i - 1, by omega⟩
  rw [hn, parseHexGoF, getD_eq_get chunk h,
    show n = chunk.length - (i + 1) from by omega]

lemma parseDecGo_neg {p : Parser} {chunk : List Nat} {i : Nat}
    (h : ¬ i < chunk.length) (v : Nat) :
    parseDecGo p chunk i v =
      some ({ p with row := p.row.set p.rowPos v }, chunk.length) := by
  unfold parseDecGo
  rw [Nat.sub_eq_zero_of_le (by omega)]
  rfl

lemma parseDecGo_pos {p : Parser} {chunk : List Nat} {i : Nat}
    (h : i < chunk.length) (v : Nat) :
    parseDecGo p chunk i v =
      (match decValue (chunk.get ⟨i, h⟩) with
      | some d => parseDecGo p chunk (i + 1) ((v * 10 + d) % M32)
      | none => do
          let s ← p.state.next
          some ({ p with row := p.row.set p.rowPos v,
                         rowPos := p.rowPos + 1, state := s }, i + 1)) := by
  unfold parseDecGo
  obtain ⟨n, hn⟩ : ∃ n, chunk.length - i = n + 1 :=
    ⟨chunk.length - i - 1, by omega⟩
  rw [hn, parseDecGoF, getD_eq_get chunk h,
    show n = chunk.length - (i + 1) from by omega]

lemma parseStrGo_neg {p : Parser} {chunk : List Nat} {i : Nat}
    (h : ¬ i < chunk.length) (offset : Nat) :
    parseStrGo p chunk offset i =
      some (p, [Event.onStrValue (slice chunk offset chunk.length)],
        chunk.length) := by
  unfold parseStrGo
  rw [Nat.sub_eq_zero_of_le (by omega)]
  rfl

lemma parseStrGo_pos {p : Parser} {chunk : List Nat} {i : Nat}
    (h : i < chunk.length) (offset : Nat) :
    parseStrGo p chunk offset i =
      if chunk.get ⟨i, h⟩ = 10 then do
        let s ← p.state.next
        some ({ p with state := s },
              [Event.onStrValue (slice chunk offset i)], i + 1)
      else
        parseStrGo p chunk offset (i + 1) := by
  unfold parseStrGo
  obtain ⟨n, hn⟩ : ∃ n, chunk.length - i = n + 1 :=
    ⟨chunk.length - i - 1, by omega⟩
  rw [hn, parseStrGoF, getD_eq_get chunk h,
    show n = chunk.length - (i + 1) from by omega]

lemma skipUntilDigit_neg {p : Parser} {chunk : List Nat} {i : Nat}
    (h : ¬ i < chunk.length) :
    skipUntilDigit p chunk i = some (p, chunk.length) := by
  unfold skipUntilDigit
  rw [Nat.sub_eq_zero_of_le (by omega)]
  rfl

lemma skipUntilDigit_pos {p : Parser} {chunk : List Nat} {i : Nat}
    (h : i < chunk.length) :
    skipUntilDigit p chunk i =
      if (hexValue (chunk.get ⟨i, h⟩)).isSome then do
        let s ← p.state.next
        some ({ p with state := s }, i)
      else
        skipUntilDigit p chunk (i + 1) := by
  unfold skipUntilDigit
  obtain ⟨n, hn⟩ : ∃ n, chunk.length - i = n + 1 :=
    ⟨chunk.length - i - 1, by omega⟩
  rw [hn, skipUntilDigitF, getD_eq_get chunk h,
    show n = chunk.length - (i + 1) from by omega]

lemma skipPastNewline_neg {p : Parser} {chunk : List Nat} {i : Nat}
    (h : ¬ i < chunk.length) :
    skipPastNewline p chunk i = (p, chunk.length) := by
  unfold skipPastNewline
  rw [Nat.sub_eq_zero_of_le (by omega)]
  rfl

lemma skipPastNewline_pos {p : Parser} {chunk : List Nat} {i : Nat}
    (h : i < chunk.length) :
    skipPastNewline p chunk i =
      if chunk.get ⟨i, h⟩ = 10 then ({ p with state := State.start }, i + 1)
      else skipPastNewline p chunk (i + 1) := by
  unfold skipPastNewline
  obtain ⟨n, hn⟩ : ∃ n, chunk.length - i = n + 1 :=
    ⟨chunk.length - i - 1, by omega⟩
  rw [hn, skipPastNewlineF, getD_eq_get chunk h,
    show n = chunk.length - (i + 1) from by omega]

/-- `parse_hex` scan: always succeeds from an in-bounds start, preserves
the invariant, and makes progress. -/
theorem parseHexGo_spec : ∀ (n : Nat) (p : Parser) (c : List Nat) (i v : Nat),
    c.length - i ≤ n → isHexSt p.state = true → Inv p → i ≤ c.length →
    ∃ p1 o1, parseHexGo p c i v = some (p1, o1) ∧ Inv p1 ∧ i ≤ o1 ∧
      o1 ≤ c.length ∧ (i < c.length → i < o1) := by
  intro n
  induction n with
  | zero =>
    intro p c i v hn hs hI hi
    have hlen : ¬ i < c.length := by omega
    rw [parseHexGo_neg hlen _]
    exact ⟨_, _, rfl, ⟨by simp [Inv, length_set_row, hI.1], hI.2⟩,
      by omega, le_rfl, fun h => absurd h hlen⟩
  | succ n ih =>
    intro p c i v hn hs hI hi
    by_cases hlt : i < c.length
    · rw [parseHexGo_pos hlt _]
      cases hx : hexValue (c.get ⟨i, hlt⟩) with
      | some d =>
        obtain ⟨p1, o1, h1, h2, h3, h4, h5⟩ :=
          ih p c (i + 1) ((v * 16 + d) % M32) (by omega) hs hI (by omega)
        refine ⟨p1, o1, h1, h2, by omega, h4, fun _ => by omega⟩
      | none =>
        obtain ⟨s', hs', hpos, _⟩ := hexSt_next p.state hs
        refine ⟨{ p with rowPos := p.rowPos + 1, state := s' }, i + 1,
          by simp [hs'], ⟨by simpa using hI.1, by simp [hpos, hI.2]⟩,
          by omega, by omega, fun _ => by omega⟩
    · rw [parseHexGo_neg hlt _]
      exact ⟨_, _, rfl, ⟨by simp [Inv, length_set_row, hI.1], hI.2⟩,
        by omega, le_rfl, fun h => absurd h hlt⟩

/-- `parse_dec` scan: same shape as `parseHexGo_spec`. -/
theorem parseDecGo_spec : ∀ (n : Nat) (p : Parser) (c : List Nat) (i v : Nat),
    c.length - i ≤ n → isDecSt p.state = true → Inv p → i ≤ c.length →
    ∃ p1 o1, parseDecGo p c i v = some (p1, o1) ∧ Inv p1 ∧ i ≤ o1 ∧
      o1 ≤ c.length ∧ (i < c.length → i < o1) := by
  intro n
  induction n with
  | zero =>
    intro p c i v hn hs hI hi
    have hlen : ¬ i < c.length := by omega
    rw [parseDecGo_neg hlen _]
    exact ⟨_, _, rfl, ⟨by simp [length_set_row, hI.1], hI.2⟩,
      by omega, le_rfl, fun h => absurd h hlen⟩
  | succ n ih =>
    intro p c i v hn hs hI hi
    by_cases hlt : i < c.length
    · rw [parseDecGo_pos hlt _]
      cases hx : decValue (c.get ⟨i, hlt⟩) with
      | some d =>
        obtain ⟨p1, o1, h1, h2, h3, h4, h5⟩ :=
          ih p c (i + 1) ((v * 10 + d) % M32) (by omega) hs hI (by omega)
        refine ⟨p1, o1, h1, h2, by omega, h4, fun _ => by omega⟩
      | none =>
        obtain ⟨s', hs', hpos, _⟩ := decSt_next p.state hs
        refine ⟨{ p with row := p.row.set p.rowPos v,
                          rowPos := p.rowPos + 1, state := s' }, i + 1,
          by simp [hs'],
          ⟨by simp [length_set_row, hI.1], by simp [hpos, hI.2]⟩,
          by omega, by omega, fun _ => by omega⟩
    · rw [parseDecGo_neg hlt _]
      exact ⟨_, _, rfl, ⟨by simp [length_set_row, hI.1], hI.2⟩,
        by omega, le_rfl, fun h => absurd h hlt⟩

/-- `parse_str` scan: succeeds, emits one fragment, preserves the
invariant, and consumes at least one byte when in bounds. -/
theorem parseStrGo_spec : ∀ (n : Nat) (p : Parser) (c : List Nat) (o i : Nat),
    c.length - i ≤ n → isStrSt p.state = true → Inv p → i ≤ c.length →
    ∃ p1 t o1, parseStrGo p c o i = some (p1, [Event.onStrValue t], o1) ∧
      Inv p1 ∧ i ≤ o1 ∧ o1 ≤ c.length ∧ (i < c.length → i < o1) := by
  intro n
  induction n with
  | zero =>
    intro p c o i hn hs hI hi
    have hlen : ¬ i < c.length := by omega
    rw [parseStrGo_neg hlen _]
    exact ⟨_, _, _, rfl, hI, by omega, le_rfl, fun h => absurd h hlen⟩
  | succ n ih =>
    intro p c o i hn hs hI hi
    by_cases hlt : i < c.length
    · rw [parseStrGo_pos hlt _]
      by_cases hb : c.get ⟨i, hlt⟩ = 10
      · obtain ⟨s', hs', hpos, _⟩ := strSt_next p.state hs
        rw [if_pos hb]
        refine ⟨{ p with state := s' }, slice c o i, i + 1,
          by simp [hs'], ⟨by simpa using hI.1, by simp [hpos, hI.2]⟩,
          by omega, by omega, fun _ => by omega⟩
      · rw [if_neg hb]
        obtain ⟨p1, t, o1, h1, h2, h3, h4, h5⟩ :=
          ih p c o (i + 1) (by omega) hs hI (by omega)
        refine ⟨p1, t, o1, h1, h2, by omega, h4, fun _ => by omega⟩
    · rw [parseStrGo_neg hlt _]
      exact ⟨_, _, _, rfl, hI, by omega, le_rfl, fun h => absurd h hlt⟩

/-- `skip_until_digit` scan: succeeds, and either consumes at least one
byte or silently advances to a rank-1 state. -/
theorem skipUntilDigit_spec : ∀ (n : Nat) (p : Parser) (c : List Nat) (i : Nat),
    c.length - i ≤ n → isKwSt p.state = true → Inv p → i ≤ c.length →
    ∃ p1 o1, skipUntilDigit p c i = some (p1, o1) ∧ Inv p1 ∧ i ≤ o1 ∧
      o1 ≤ c.length ∧
      (i < c.length → (i < o1 ∨ (o1 = i ∧ rank p1.state = 1))) := by
  intro n
  induction n with
  | zero =>
    intro p c i hn hs hI hi
    have hlen : ¬ i < c.length := by omega
    rw [skipUntilDigit_neg hlen]
    exact ⟨_, _, rfl, hI, by omega, le_rfl, fun h => absurd h hlen⟩
  | succ n ih =>
    intro p c i hn hs hI hi
    by_cases hlt : i < c.length
    · rw [skipUntilDigit_pos hlt]
      by_cases hb : (hexValue (c.get ⟨i, hlt⟩)).isSome
      · obtain ⟨s', hs', hpos, hrk⟩ := kwSt_next p.state hs
        rw [if_pos hb]
        refine ⟨{ p with state := s' }, i, by simp [hs'],
          ⟨by simpa using hI.1, by simp [hpos, hI.2]⟩,
          le_rfl, by omega, fun _ => Or.inr ⟨rfl, by simpa using hrk⟩⟩
      · rw [if_neg hb]
        obtain ⟨p1, o1, h1, h2, h3, h4, h5⟩ :=
          ih p c (i + 1) (by omega) hs hI (by omega)
        refine ⟨p1, o1, h1, h2, by omega, h4, fun h => Or.inl (by omega)⟩
    · rw [skipUntilDigit_neg hlt]
      exact ⟨_, _, rfl, hI, by omega, le_rfl, fun h => absurd h hlt⟩

/-- `skip_past_newline` scan (total): preserves the invariant and
consumes at least one byte when in bounds. -/
theorem skipPastNewline_spec : ∀ (n : Nat) (p : Parser) (c : List Nat) (i : Nat),
    c.length - i ≤ n → p.state = State.skip → Inv p → i ≤ c.length →
    Inv (skipPastNewline p c i).1 ∧ i ≤ (skipPastNewline p c i).2 ∧
      (skipPastNewline p c i).2 ≤ c.length ∧
      (i < c.length → i < (skipPastNewline p c i).2) := by
  intro n
  induction n with
  | zero =>
    intro p c i hn hs hI hi
    have hlen : ¬ i < c.length := by omega
    rw [skipPastNewline_neg hlen]
    exact ⟨hI, by omega, le_rfl, fun h => absurd h hlen⟩
  | succ n ih =>
    intro p c i hn hs hI hi
    by_cases hlt : i < c.length
    · rw [skipPastNewline_pos hlt]
      by_cases hb : c.get ⟨i, hlt⟩ = 10
      · rw [if_pos hb]
        refine ⟨⟨by simpa using hI.1, ?_⟩, by omega, by omega, fun _ => by omega⟩
        have h0 := hI.2
        rw [hs] at h0
        simpa [posOf] using h0
      · rw [if_neg hb]
        obtain ⟨h2, h3, h4, h5⟩ := ih p c (i + 1) (by omega) hs hI (by omega)
        exact ⟨h2, by omega, h4, fun _ => by omega⟩
    · rw [skipPastNewline_neg hlt]
      exact ⟨hI, by omega, le_rfl, fun h => absurd h hlt⟩

/-- Under the invariant, reading `row[row_pos]` cannot panic. -/
lemma row_get_some (p : Parser) (hI : Inv p) (hle : posOf p.state ≤ 3) :
    ∃ v, p.row.get? p.rowPos = some v := by
  have h : p.rowPos < p.row.length := by rw [hI.1, hI.2]; omega
  exact ⟨p.row.get ⟨p.rowPos, h⟩, List.get?_eq_get h⟩

lemma parseHex_step (p : Parser) (c : List Nat) (offset : Nat)
    (hI : Inv p) (hoff : offset < c.length) (hhex : isHexSt p.state = true) :
    ∃ p1 o1, parseHex p c offset = some (p1, o1) ∧ Inv p1 ∧
      offset < o1 ∧ o1 ≤ c.length := by
  obtain ⟨v, hv⟩ := row_get_some p hI (posOf_le_three_of_hex _ hhex)
  obtain ⟨p1, o1, h1, h2, h3, h4, h5⟩ :=
    parseHexGo_spec (c.length - offset) p c offset v le_rfl hhex hI
      (le_of_lt hoff)
  rw [List.get?_eq_getElem?] at hv
  exact ⟨p1, o1, by simp [parseHex, hv, h1], h2, h5 hoff, h4⟩

lemma parseDec_step (p : Parser) (c : List Nat) (offset : Nat)
    (hI : Inv p) (hoff : offset < c.length) (hdec : isDecSt p.state = true) :
    ∃ p1 o1, parseDec p c offset = some (p1, o1) ∧ Inv p1 ∧
      offset < o1 ∧ o1 ≤ c.length := by
  obtain ⟨v, hv⟩ := row_get_some p hI (posOf_le_three_of_dec _ hdec)
  obtain ⟨p1, o1, h1, h2, h3, h4, h5⟩ :=
    parseDecGo_spec (c.length - offset) p c offset v le_rfl hdec hI
      (le_of_lt hoff)
  rw [List.get?_eq_getElem?] at hv
  exact ⟨p1, o1, by simp [parseDec, hv, h1], h2, h5 hoff, h4⟩

lemma parseStr_step (p : Parser) (c : List Nat) (offset : Nat)
    (hI : Inv p) (hoff : offset < c.length) (hstr : isStrSt p.state = true) :
    ∃ p1 t o1, parseStr p c offset = some (p1, [Event.onStrValue t], o1) ∧
      Inv p1 ∧ offset < o1 ∧ o1 ≤ c.length := by
  obtain ⟨p1, t, o1, h1, h2, h3, h4, h5⟩ :=
    parseStrGo_spec (c.length - offset) p c offset offset le_rfl hstr hI
      (le_of_lt hoff)
  exact ⟨p1, t, o1, h1, h2, h5 hoff, h4⟩

lemma parseStart_spec (p : Parser) (c : List Nat) (offset : Nat)
    (hI : Inv p) (hoff : offset < c.length) (hs : p.state = State.start) :
    ∃ p1 o1, parseStart p c offset = some (p1, o1) ∧ Inv p1 ∧
      (offset < o1 ∨ (o1 = offset ∧ rank p1.state = 1)) ∧
      o1 ≤ offset + 1 := by
  have hpos0 : p.rowPos = 0 := by rw [hI.2, hs]; rfl
  obtain ⟨ch, hch⟩ : ∃ ch, c.get? offset = some ch :=
    ⟨c.get ⟨offset, hoff⟩, List.get?_eq_get hoff⟩
  rw [List.get?_eq_getElem?] at hch
  by_cases hx : (hexValue ch).isSome
  · exact ⟨{ p with state := State.lineHexAddr }, offset,
      by simp [parseStart, hch, hx], ⟨by simpa using hI.1, by simp [posOf, hpos0]⟩,
      Or.inr ⟨rfl, rfl⟩, by omega⟩
  · refine ⟨{ p with state := classifyStart ch }, offset + 1,
      by simp [parseStart, hch, hx], ⟨by simpa using hI.1, ?_⟩,
      Or.inl (by omega), le_rfl⟩
    simp [posOf_classifyStart, hpos0]

lemma parseFuncOrFile_spec (p : Parser) (c : List Nat) (offset : Nat)
    (hI : Inv p) (hoff : offset < c.length)
    (hs : p.state = State.funcOrFile) :
    ∃ p1, parseFuncOrFile p c offset = some (p1, offset + 1) ∧ Inv p1 := by
  have hpos0 : p.rowPos = 0 := by rw [hI.2, hs]; rfl
  obtain ⟨ch, hch⟩ : ∃ ch, c.get? offset = some ch :=
    ⟨c.get ⟨offset, hoff⟩, List.get?_eq_get hoff⟩
  rw [List.get?_eq_getElem?] at hch
  refine ⟨{ p with state := classifyFuncOrFile ch },
    by simp [parseFuncOrFile, hch], ⟨by simpa using hI.1, ?_⟩⟩
  simp [posOf_classifyFuncOrFile, hpos0]

lemma onEnd_inv (p : Parser) : Inv (onEnd p) := by
  constructor <;> rfl

lemma onLineEnd_inv (p : Parser) : Inv (onLineEnd p).1 := onEnd_inv p
lemma onFuncEnd_inv (p : Parser) : Inv (onFuncEnd p).1 := onEnd_inv p
lemma onFileEnd_inv (p : Parser) : Inv (onFileEnd p).1 := onEnd_inv p
lemma onPublicEnd_inv (p : Parser) : Inv (onPublicEnd p).1 := onEnd_inv p

lemma rank_start : rank State.start = 2 := rfl

/-- Totality of the dispatch loop: under the invariant, with fuel
exceeding `3 * remaining + rank`, the loop never panics (row indexing
in bounds, `State::next` never evaluated on the last discriminant) and
never exhausts its fuel; the invariant is preserved. -/
theorem parseLoop_total : ∀ (fuel : Nat), ∀ (p : Parser) (c : List Nat)
    (offset : Nat), Inv p → 3 * (c.length - offset) + rank p.state < fuel →
    ∃ p1 e, parseLoop fuel p c offset = some (p1, e) ∧ Inv p1 := by
  intro fuel
  induction fuel with
  | zero => intro p c offset _ hb; omega
  | succ fuel ih =>
    intro p c offset hI hb
    have hrk1 : 1 ≤ rank p.state := by
      cases p.state <;> simp [rank]
    by_cases hoff : offset < c.length
    · rw [parseLoop, if_pos hoff]
      cases hst : p.state with
      | start =>
        obtain ⟨p1, o1, h1, h2, h3, h4⟩ := parseStart_spec p c offset hI hoff hst
        simp only [h1]
        have hr : rank p.state = 2 := by rw [hst]; rfl
        have := rank_le_three p1.state
        rcases h3 with h3 | ⟨h3, h3r⟩
        · exact ih p1 c o1 h2 (by omega)
        · exact ih p1 c o1 h2 (by omega)
      | funcOrFile =>
        obtain ⟨p1, h1, h2⟩ := parseFuncOrFile_spec p c offset hI hoff hst
        simp only [h1]
        have hr : rank p.state = 1 := by rw [hst]; rfl
        have := rank_le_three p1.state
        exact ih p1 c (offset + 1) h2 (by omega)
      | lineHexAddr =>
        obtain ⟨p1, o1, h1, h2, h3, h4⟩ :=
          parseHex_step p c offset hI hoff (by rw [hst]; rfl)
        simp only [h1]
        have hr : rank p.state = 1 := by rw [hst]; rfl
        have := rank_le_three p1.state
        exact ih p1 c o1 h2 (by omega)
      | lineHexSize =>
        obtain ⟨p1, o1, h1, h2, h3, h4⟩ :=
          parseHex_step p c offset hI hoff (by rw [hst]; rfl)
        simp only [h1]
        have hr : rank p.state = 1 := by rw [hst]; rfl
        have := rank_le_three p1.state
        exact ih p1 c o1 h2 (by omega)
      | funcHexAddr =>
        obtain ⟨p1, o1, h1, h2, h3, h4⟩ :=
          parseHex_step p c offset hI hoff (by rw [hst]; rfl)
        simp only [h1]
        have hr : rank p.state = 1 := by rw [hst]; rfl
        have := rank_le_three p1.state
        exact ih p1 c o1 h2 (by omega)
      | funcHexSize =>
        obtain ⟨p1, o1, h1, h2, h3, h4⟩ :=
          parseHex_step p c offset hI hoff (by rw [hst]; rfl)
        simp only [h1]
        have hr : rank p.state = 1 := by rw [hst]; rfl
        have := rank_le_three p1.state
        exact ih p1 c o1 h2 (by omega)
      | funcHexParams =>
        obtain ⟨p1, o1, h1, h2, h3, h4⟩ :=
          parseHex_step p c offset hI hoff (by rw [hst]; rfl)
        simp only [h1]
        have hr : rank p.state = 1 := by rw [hst]; rfl
        have := rank_le_three p1.state
        exact ih p1 c o1 h2 (by omega)
      | publicHexAddr =>
        obtain ⟨p1, o1, h1, h2, h3, h4⟩ :=
          parseHex_step p c offset hI hoff (by rw [hst]; rfl)
        simp only [h1]
        have hr : rank p.state = 1 := by rw [hst]; rfl
        have := rank_le_three p1.state
        exact ih p1 c o1 h2 (by omega)
      | publicHexParams =>
        obtain ⟨p1, o1, h1, h2, h3, h4⟩ :=
          parseHex_step p c offset hI hoff (by rw [hst]; rfl)
        simp only [h1]
        have hr : rank p.state = 1 := by rw [hst]; rfl
        have := rank_le_three p1.state
        exact ih p1 c o1 h2 (by omega)
      | lineDecLine =>
        obtain ⟨p1, o1, h1, h2, h3, h4⟩ :=
          parseDec_step p c offset hI hoff (by rw [hst]; rfl)
        simp only [h1]
        have hr : rank p.state = 1 := by rw [hst]; rfl
        have := rank_le_three p1.state
        exact ih p1 c o1 h2 (by omega)
      | lineDecFile =>
        obtain ⟨p1, o1, h1, h2, h3, h4⟩ :=
          parseDec_step p c offset hI hoff (by rw [hst]; rfl)
        simp only [h1]
        have hr : rank p.state = 1 := by rw [hst]; rfl
        have := rank_le_three p1.state
        exact ih p1 c o1 h2 (by omega)
      | fileDecIndex =>
        obtain ⟨p1, o1, h1, h2, h3, h4⟩ :=
          parseDec_step p c offset hI hoff (by rw [hst]; rfl)
        simp only [h1]
        have hr : rank p.state = 1 := by rw [hst]; rfl
        have := rank_le_three p1.state
        exact ih p1 c o1 h2 (by omega)
      | funcStrName =>
        obtain ⟨p1, t, o1, h1, h2, h3, h4⟩ :=
          parseStr_step p c offset hI hoff (by rw [hst]; rfl)
        simp only [h1]
        have hr : rank p.state = 1 := by rw [hst]; rfl
        have := rank_le_three p1.state
        obtain ⟨pf, e, hf, hIf⟩ := ih p1 c o1 h2 (by omega)
        simp only [hf]
        exact ⟨pf, _ ++ e, rfl, hIf⟩
      | fileStrName =>
        obtain ⟨p1, t, o1, h1, h2, h3, h4⟩ :=
          parseStr_step p c offset hI hoff (by rw [hst]; rfl)
        simp only [h1]
        have hr : rank p.state = 1 := by rw [hst]; rfl
        have := rank_le_three p1.state
        obtain ⟨pf, e, hf, hIf⟩ := ih p1 c o1 h2 (by omega)
        simp only [hf]
        exact ⟨pf, _ ++ e, rfl, hIf⟩
      | publicStrName =>
        obtain ⟨p1, t, o1, h1, h2, h3, h4⟩ :=
          parseStr_step p c offset hI hoff (by rw [hst]; rfl)
        simp only [h1]
        have hr : rank p.state = 1 := by rw [hst]; rfl
        have := rank_le_three p1.state
        obtain ⟨pf, e, hf, hIf⟩ := ih p1 c o1 h2 (by omega)
        simp only [hf]
        exact ⟨pf, _ ++ e, rfl, hIf⟩
      | func =>
        obtain ⟨p1, o1, h1, h2, h3, h4, h5⟩ :=
          skipUntilDigit_spec (c.length - offset) p c offset le_rfl
            (by rw [hst]; rfl) hI (le_of_lt hoff)
        simp only [h1]
        have hr : rank p.state = 2 := by rw [hst]; rfl
        have := rank_le_three p1.state
        rcases h5 hoff with h6 | ⟨h6, h6r⟩
        · exact ih p1 c o1 h2 (by omega)
        · exact ih p1 c o1 h2 (by omega)
      | file =>
        obtain ⟨p1, o1, h1, h2, h3, h4, h5⟩ :=
          skipUntilDigit_spec (c.length - offset) p c offset le_rfl
            (by rw [hst]; rfl) hI (le_of_lt hoff)
        simp only [h1]
        have hr : rank p.state = 2 := by rw [hst]; rfl
        have := rank_le_three p1.state
        rcases h5 hoff with h6 | ⟨h6, h6r⟩
        · exact ih p1 c o1 h2 (by omega)
        · exact ih p1 c o1 h2 (by omega)
      | public =>
        obtain ⟨p1, o1, h1, h2, h3, h4, h5⟩ :=
          skipUntilDigit_spec (c.length - offset) p c offset le_rfl
            (by rw [hst]; rfl) hI (le_of_lt hoff)
        simp only [h1]
        have hr : rank p.state = 2 := by rw [hst]; rfl
        have := rank_le_three p1.state
        rcases h5 hoff with h6 | ⟨h6, h6r⟩
        · exact ih p1 c o1 h2 (by omega)
        · exact ih p1 c o1 h2 (by omega)
      | lineEnd =>
        have hr : rank p.state = 3 := by rw [hst]; rfl
        obtain ⟨pf, e, hf, hIf⟩ :=
          ih (onLineEnd p).1 c offset (onLineEnd_inv p) (by
            have : rank (onLineEnd p).1.state = 2 := rfl
            omega)
        simp only [hf]
        exact ⟨pf, _ ++ e, rfl, hIf⟩
      | funcEnd =>
        have hr : rank p.state = 3 := by rw [hst]; rfl
        obtain ⟨pf, e, hf, hIf⟩ :=
          ih (onFuncEnd p).1 c offset (onFuncEnd_inv p) (by
            have : rank (onFuncEnd p).1.state = 2 := rfl
            omega)
        simp only [hf]
        exact ⟨pf, _ ++ e, rfl, hIf⟩
      | fileEnd =>
        have hr : rank p.state = 3 := by rw [hst]; rfl
        obtain ⟨pf, e, hf, hIf⟩ :=
          ih (onFileEnd p).1 c offset (onFileEnd_inv p) (by
            have : rank (onFileEnd p).1.state = 2 := rfl
            omega)
        simp only [hf]
        exact ⟨pf, _ ++ e, rfl, hIf⟩
      | publicEnd =>
        have hr : rank p.state = 3 := by rw [hst]; rfl
        obtain ⟨pf, e, hf, hIf⟩ :=
          ih (onPublicEnd p).1 c offset (onPublicEnd_inv p) (by
            have : rank (onPublicEnd p).1.state = 2 := rfl
            omega)
        simp only [hf]
        exact ⟨pf, _ ++ e, rfl, hIf⟩
      | skip =>
        obtain ⟨h2, h3, h4, h5⟩ :=
          skipPastNewline_spec (c.length - offset) p c offset le_rfl hst hI
            (le_of_lt hoff)
        have hr : rank p.state = 1 := by rw [hst]; rfl
        have := rank_le_three (skipPastNewline p c offset).1.state
        have h6 := h5 hoff
        exact ih (skipPastNewline p c offset).1 c
          (skipPastNewline p c offset).2 h2 (by omega)
    · rw [parseLoop, if_neg hoff]
      exact ⟨p, [], rfl, hI⟩

/-- `Parser::parse` never panics and preserves the invariant. -/
theorem parse_total (p : Parser) (c : List Nat) (hI : Inv p) :
    ∃ p1 e, p.parse c = some (p1, e) ∧ Inv p1 := by
  have := rank_le_three p.state
  exact parseLoop_total (3 * c.length + 4) p c 0 hI (by omega)

/-- `Parser::finish` preserves the invariant (it either does nothing or
performs a completion, which resets the parser). -/
theorem finish_inv (p : Parser) (hI : Inv p) : Inv p.finish.1 := by
  cases hst : p.state <;>
    simp only [Parser.finish, hst] <;>
    first
      | exact onEnd_inv p
      | exact hI

/-- `runParses` never panics from an invariant state. -/
theorem runParses_total : ∀ (chunks : List (List Nat)) (p : Parser),
    Inv p → ∃ p1 e, runParses p chunks = some (p1, e) ∧ Inv p1 := by
  intro chunks
  induction chunks with
  | nil => intro p hI; exact ⟨p, [], rfl, hI⟩
  | cons c cs ih =>
    intro p hI
    obtain ⟨p1, e1, h1, hI1⟩ := parse_total p c hI
    obtain ⟨p2, e2, h2, hI2⟩ := ih p1 hI1
    exact ⟨p2, e1 ++ e2, by simp [runParses, h1, h2], hI2⟩

/-- `runCalls` never panics from an invariant state. -/
theorem runCalls_total : ∀ (calls : List Call) (p : Parser),
    Inv p → ∃ p1 e, runCalls p calls = some (p1, e) ∧ Inv p1 := by
  intro calls
  induction calls with
  | nil => intro p hI; exact ⟨p, [], rfl, hI⟩
  | cons call rest ih =>
    intro p hI
    cases call with
    | parse c =>
      obtain ⟨p1, e1, h1, hI1⟩ := parse_total p c hI
      obtain ⟨p2, e2, h2, hI2⟩ := ih p1 hI1
      exact ⟨p2, e1 ++ e2, by simp [runCalls, h1, h2], hI2⟩
    | finish =>
      obtain ⟨p2, e2, h2, hI2⟩ := ih p.finish.1 (finish_inv p hI)
      exact ⟨p2, p.finish.2 ++ e2, by simp [runCalls, h2], hI2⟩

lemma new_inv : Inv Parser.new := ⟨rfl, rfl⟩

/-! ## Facts about `slice` and `normalize` -/

lemma slice_split (c : List Nat) {o i j : Nat} (h1 : o ≤ i) (h2 : i ≤ j) :
    slice c o j = slice c o i ++ slice c i j := by
  unfold slice
  have hj : j - o = (i - o) + (j - i) := by omega
  rw [hj, List.take_add, List.drop_drop]
  have ho : o + (i - o) = i := by omega
  rw [ho]

lemma slice_len (c : List Nat) (o : Nat) :
    slice c o c.length = c.drop o := by
  unfold slice
  apply List.take_of_length_le
  simp

lemma slice_past (c : List Nat) {o i : Nat} (h : c.length ≤ i) :
    slice c o i = slice c o c.length := by
  unfold slice
  have h1 : (c.drop o).length ≤ i - o := by simp; omega
  have h2 : (c.drop o).length ≤ c.length - o := by simp
  rw [List.take_of_length_le h1, List.take_of_length_le h2]

lemma slice_one (c : List Nat) {i : Nat} (h : i < c.length) :
    slice c i (i + 1) = [c.get ⟨i, h⟩] := by
  unfold slice
  have h1 : i + 1 - i = 1 := by omega
  rw [h1, List.drop_eq_getElem_cons h]
  rfl

lemma slice_refl (c : List Nat) (i : Nat) : slice c i i = [] := by
  unfold slice
  simp

lemma mergeHead_mergeHead (a b : List Nat) (r : List Event) :
    mergeHead a (mergeHead b r) = mergeHead (a ++ b) r := by
  cases r with
  | nil => simp [mergeHead]
  | cons e r' => cases e <;> simp [mergeHead, List.append_assoc]

lemma normalize_cons_str (s : List Nat) (r : List Event) :
    normalize (Event.onStrValue s :: r) = mergeHead s (normalize r) := rfl

lemma normalize_mergeHead_append (s : List Nat) :
    ∀ (y E : List Event),
      normalize (mergeHead s y ++ E) = mergeHead s (normalize (y ++ E)) := by
  intro y E
  cases y with
  | nil => simp [mergeHead, normalize_cons_str]
  | cons e y' =>
    cases e with
    | onStrValue v =>
      rw [show mergeHead s (Event.onStrValue v :: y') =
            Event.onStrValue (s ++ v) :: y' from rfl]
      simp only [List.cons_append, normalize_cons_str]
      rw [mergeHead_mergeHead]
    | onLine a b c d => rfl
    | onFunc a b c => rfl
    | onFile a => rfl
    | onPublic a b => rfl

/-- `normalize` only depends on the normalisation of a prefix. -/
lemma normalize_norm_append : ∀ (x E : List Event),
    normalize (normalize x ++ E) = normalize (x ++ E) := by
  intro x
  induction x with
  | nil => intro E; rfl
  | cons e x ih =>
    intro E
    cases e with
    | onStrValue s =>
      simp only [normalize, List.cons_append, List.append_eq]
      rw [normalize_mergeHead_append, ih]
    | onLine a b c d =>
      simp only [normalize, List.cons_append, List.append_eq]
      rw [ih]
    | onFunc a b c =>
      simp only [normalize, List.cons_append, List.append_eq]
      rw [ih]
    | onFile a =>
      simp only [normalize, List.cons_append, List.append_eq]
      rw [ih]
    | onPublic a b =>
      simp only [normalize, List.cons_append, List.append_eq]
      rw [ih]

/-- Congruence: appending on the right respects `normalize`-equality. -/
lemma normalize_append_congr_right {E F : List Event}
    (h : normalize E = normalize F) :
    ∀ x : List Event, normalize (x ++ E) = normalize (x ++ F) := by
  intro x
  induction x with
  | nil => simpa using h
  | cons e x ih =>
    cases e with
    | onStrValue s =>
      simp only [List.cons_append, List.append_eq, normalize_cons_str]
      rw [ih]
    | onLine a b c d =>
      simp only [List.cons_append, List.append_eq, normalize]
      rw [ih]
    | onFunc a b c =>
      simp only [List.cons_append, List.append_eq, normalize]
      rw [ih]
    | onFile a =>
      simp only [List.cons_append, List.append_eq, normalize]
      rw [ih]
    | onPublic a b =>
      simp only [List.cons_append, List.append_eq, normalize]
      rw [ih]

/-- Both-sided congruence used to compose per-chunk traces. -/
lemma normalize_append_congr {e1 f1 E F : List Event}
    (h1 : normalize e1 = normalize f1) (h2 : normalize E = normalize F) :
    normalize (e1 ++ E) = normalize (f1 ++ F) := by
  calc normalize (e1 ++ E) = normalize (normalize e1 ++ E) :=
        (normalize_norm_append e1 E).symm
    _ = normalize (normalize f1 ++ E) := by rw [h1]
    _ = normalize (f1 ++ E) := normalize_norm_append f1 E
    _ = normalize (f1 ++ F) := normalize_append_congr_right h2 f1

lemma mapFrag_comp (a b : List Nat) :
    ∀ evs : List Event, mapFrag a (mapFrag b evs) = mapFrag (a ++ b) evs := by
  intro evs
  match evs with
  | [] => rfl
  | [Event.onStrValue t] => simp [mapFrag, List.append_assoc]
  | [Event.onLine _ _ _ _] => rfl
  | [Event.onFunc _ _ _] => rfl
  | [Event.onFile _] => rfl
  | [Event.onPublic _ _] => rfl
  | e1 :: e2 :: rest =>
    cases e1 <;> rfl

/-! ## Single-byte characterisation of `consume` -/

lemma inv_of_rel {p q : Parser} (hR : Rel p q) (hI : Inv p) : Inv q :=
  ⟨hR.2.2.2, by rw [← hR.2.1, hI.2, hR.1]⟩

lemma rel_of_inv {p : Parser} (hI : Inv p) : Rel p p :=
  ⟨rfl, rfl, hI.1, hI.1⟩

lemma drop_cons (c : List Nat) {i : Nat} (h : i < c.length) :
    c.drop i = c.get ⟨i, h⟩ :: c.drop (i + 1) := by
  rw [List.drop_eq_getElem_cons h]
  rfl

lemma parseLoop_stop {fuel : Nat} (p : Parser) (c : List Nat) {offset : Nat}
    (hoff : ¬ offset < c.length) (hf : 1 ≤ fuel) :
    parseLoop fuel p c offset = some (p, []) := by
  obtain ⟨f, rfl⟩ : ∃ f, fuel = f + 1 := ⟨fuel - 1, by omega⟩
  rw [parseLoop, if_neg hoff]

lemma runB_cons_some {q q1 q2 : Parser} {b : Nat} {bs : List Nat}
    {e1 e2 : List Event} (h1 : consume q b = some (q1, e1))
    (h2 : runB q1 bs = some (q2, e2)) :
    runB q (b :: bs) = some (q2, e1 ++ e2) := by
  simp [runB, h1, h2]

lemma runB_congr_head {q0 q1 : Parser} {b : Nat} (bs : List Nat)
    (hc : consume q0 b = consume q1 b) :
    runB q0 (b :: bs) = runB q1 (b :: bs) := by
  simp only [runB, hc]

lemma runB_fire {q0 q1 : Parser} {ev : List Event} {b : Nat} (bs : List Nat)
    (hc : consume q0 b = (consume q1 b).map (fun r => (r.1, ev ++ r.2))) :
    runB q0 (b :: bs) = (runB q1 (b :: bs)).map (fun r => (r.1, ev ++ r.2)) := by
  simp only [runB, hc]
  cases hc1 : consume q1 b with
  | none => simp
  | some r =>
    simp only [Option.map_some]
    cases h2 : runB r.1 bs with
    | none => simp [h2]
    | some r2 => simp [h2, List.append_assoc]

lemma consume_start_hex {q : Parser} {b : Nat} (hq : q.state = State.start)
    (hb : (hexValue b).isSome = true) :
    consume q b = consume { q with state := State.lineHexAddr } b := by
  simp [consume, consumeMid, hq, hb]

lemma consume_start_other {q : Parser} {b : Nat} (hq : q.state = State.start)
    (hb : ¬ (hexValue b).isSome = true) :
    consume q b = some ({ q with state := classifyStart b }, []) := by
  simp [consume, consumeMid, hq, hb]

lemma consume_funcOrFile {q : Parser} {b : Nat}
    (hq : q.state = State.funcOrFile) :
    consume q b = some ({ q with state := classifyFuncOrFile b }, []) := by
  simp [consume, consumeMid, consumeRun, hq]

lemma consume_hex_digit {q : Parser} {b v d : Nat}
    (hq : isHexSt q.state = true) (hv : q.row.get? q.rowPos = some v)
    (hb : hexValue b = some d) :
    consume q b =
      some ({ q with row := q.row.set q.rowPos ((v * 16 + d) % M32) }, []) := by
  rw [List.get?_eq_getElem?] at hv
  cases hst : q.state <;> simp [isHexSt, hst] at hq <;>
    simp [consume, consumeMid, consumeRun, hst, hv, hb]

lemma consume_hex_delim {q : Parser} {b v : Nat} {s2 : State}
    (hq : isHexSt q.state = true) (hv : q.row.get? q.rowPos = some v)
    (hb : hexValue b = none) (hn : q.state.next = some s2) :
    consume q b = some ({ q with rowPos := q.rowPos + 1, state := s2 }, []) := by
  rw [List.get?_eq_getElem?] at hv
  cases hst : q.state <;> simp [isHexSt, hst] at hq <;>
    rw [hst] at hn <;>
    simp [consume, consumeMid, consumeRun, hst, hv, hb, hn]

lemma consume_dec_digit {q : Parser} {b v d : Nat}
    (hq : isDecSt q.state = true) (hv : q.row.get? q.rowPos = some v)
    (hb : decValue b = some d) :
    consume q b =
      some ({ q with row := q.row.set q.rowPos ((v * 10 + d) % M32) }, []) := by
  rw [List.get?_eq_getElem?] at hv
  cases hst : q.state <;> simp [isDecSt, hst] at hq <;>
    simp [consume, consumeMid, consumeRun, hst, hv, hb]

lemma consume_dec_delim {q : Parser} {b v : Nat} {s2 : State}
    (hq : isDecSt q.state = true) (hv : q.row.get? q.rowPos = some v)
    (hb : decValue b = none) (hn : q.state.next = some s2) :
    consume q b = some ({ q with row := q.row.set q.rowPos v, rowPos := q.rowPos + 1, state := s2 }, []) := by
  rw [List.get?_eq_getElem?] at hv
  cases hst : q.state <;> simp [isDecSt, hst] at hq <;>
    rw [hst] at hn <;>
    simp [consume, consumeMid, consumeRun, hst, hv, hb, hn]

lemma consume_str_nl {q : Parser} {s2 : State}
    (hq : isStrSt q.state = true) (hn : q.state.next = some s2) :
    consume q 10 = some ({ q with state := s2 }, [Event.onStrValue []]) := by
  cases hst : q.state <;> simp [isStrSt, hst] at hq <;>
    rw [hst] at hn <;>
    simp [consume, consumeMid, consumeRun, hst, hn]

lemma consume_str_other {q : Parser} {b : Nat}
    (hq : isStrSt q.state = true) (hb : ¬ b = 10) :
    consume q b = some (q, [Event.onStrValue [b]]) := by
  cases hst : q.state <;> simp [isStrSt, hst] at hq <;>
    simp [consume, consumeMid, consumeRun, hst, hb]

lemma consume_kw_hex {q : Parser} {b : Nat} {s2 : State}
    (hq : isKwSt q.state = true) (hn : q.state.next = some s2)
    (hb : (hexValue b).isSome = true) :
    consume q b = consume { q with state := s2 } b := by
  cases hst : q.state <;> simp [isKwSt, hst] at hq <;>
    rw [hst] at hn <;> simp [State.next] at hn <;>
    simp [consume, consumeMid, consumeRun, hst, hb, ← hn]

lemma consume_kw_other {q : Parser} {b : Nat}
    (hq : isKwSt q.state = true) (hb : ¬ (hexValue b).isSome = true) :
    consume q b = some (q, []) := by
  cases hst : q.state <;> simp [isKwSt, hst] at hq <;>
    simp [consume, consumeMid, hst, hb]

lemma consume_skip_nl {q : Parser} (hq : q.state = State.skip) :
    consume q 10 = some ({ q with state := State.start }, []) := by
  simp [consume, consumeMid, consumeRun, hq]

lemma consume_skip_other {q : Parser} {b : Nat} (hq : q.state = State.skip)
    (hb : ¬ b = 10) :
    consume q b = some (q, []) := by
  simp [consume, consumeMid, consumeRun, hq, hb]

lemma consume_lineEnd {q : Parser} {b : Nat} (hq : q.state = State.lineEnd) :
    consume q b = (consume (onEnd q) b).map
      (fun r => (r.1, [Event.onLine 0 0 0 0] ++ r.2)) := by
  have h2 : consume (onEnd q) b = consumeMid (onEnd q) b := by
    simp [consume, onEnd]
  rw [h2]
  simp [consume, hq, onLineEnd, rowGet, onEnd]

lemma consume_funcEnd {q : Parser} {b : Nat} (hq : q.state = State.funcEnd) :
    consume q b = (consume (onEnd q) b).map
      (fun r => (r.1, [Event.onFunc 0 0 0] ++ r.2)) := by
  have h2 : consume (onEnd q) b = consumeMid (onEnd q) b := by
    simp [consume, onEnd]
  rw [h2]
  simp [consume, hq, onFuncEnd, rowGet, onEnd]

lemma consume_fileEnd {q : Parser} {b : Nat} (hq : q.state = State.fileEnd) :
    consume q b = (consume (onEnd q) b).map
      (fun r => (r.1, [Event.onFile 0] ++ r.2)) := by
  have h2 : consume (onEnd q) b = consumeMid (onEnd q) b := by
    simp [consume, onEnd]
  rw [h2]
  simp [consume, hq, onFileEnd, rowGet, onEnd]

lemma consume_publicEnd {q : Parser} {b : Nat} (hq : q.state = State.publicEnd) :
    consume q b = (consume (onEnd q) b).map
      (fun r => (r.1, [Event.onPublic 0 0] ++ r.2)) := by
  have h2 : consume (onEnd q) b = consumeMid (onEnd q) b := by
    simp [consume, onEnd]
  rw [h2]
  simp [consume, hq, onPublicEnd, rowGet, onEnd]

/-! ## The chunk-to-byte bridge -/

lemma auxHex_stop {fuel : Nat} {c : List Nat} {p q : Parser} {i v : Nat}
    (hR : Rel p q) (hI : Inv p) (hlen : ¬ i < c.length) (hf : 1 ≤ fuel) :
    ∃ p1 o1 pf e qf f,
      parseHexGo p c i v = some (p1, o1) ∧
      parseLoop fuel p1 c o1 = some (pf, e) ∧
      runB q (c.drop i) = some (qf, f) ∧
      Rel pf qf ∧ Inv pf ∧ normalize e = normalize f := by
  refine ⟨{ p with row := p.row.set p.rowPos v }, c.length, _, [], q, [],
    by rw [parseHexGo_neg hlen _],
    parseLoop_stop _ c (by omega) hf,
    by rw [List.drop_eq_nil_of_le (by omega)]; rfl,
    ⟨hR.1, hR.2.1, by simp [length_set_row, hR.2.2.1], hR.2.2.2⟩,
    ⟨by simp [length_set_row, hI.1], hI.2⟩, rfl⟩

lemma auxHex : ∀ (n fuel : Nat) (c : List Nat), BridgeIH fuel →
    ∀ (p q : Parser) (i v : Nat), c.length - i ≤ n →
    Rel p q → Inv p → isHexSt p.state = true →
    3 * (c.length - i) + 1 ≤ fuel →
    ∃ p1 o1 pf e qf f,
      parseHexGo p c i v = some (p1, o1) ∧
      parseLoop fuel p1 c o1 = some (pf, e) ∧
      runB q (c.drop i) = some (qf, f) ∧
      Rel pf qf ∧ Inv pf ∧ normalize e = normalize f := by
  intro n
  induction n with
  | zero =>
    intro fuel c ihB p q i v hn hR hI hs hb
    exact auxHex_stop hR hI (by omega) (by omega)
  | succ n ihn =>
    intro fuel c ihB p q i v hn hR hI hs hb
    by_cases hlt : i < c.length
    · have hdrop := drop_cons c hlt
      have hqs : isHexSt q.state = true := by rw [← hR.1]; exact hs
      obtain ⟨w, hw⟩ := row_get_some q (inv_of_rel hR hI)
        (by rw [← hR.1]; exact posOf_le_three_of_hex _ hs)
      cases hx : hexValue (c.get ⟨i, hlt⟩) with
      | some d =>
        have hstep : parseHexGo p c i v =
            parseHexGo p c (i + 1) ((v * 16 + d) % M32) := by
          rw [parseHexGo_pos hlt _, hx]
        have hcons := consume_hex_digit hqs hw hx
        have hR2 : Rel p { q with row := q.row.set q.rowPos ((w * 16 + d) % M32) } :=
          ⟨hR.1, hR.2.1, hR.2.2.1, by simp [length_set_row, hR.2.2.2]⟩
        obtain ⟨p1, o1, pf, e, qf, f, H1, H2, H3, H4, H5, H6⟩ :=
          ihn fuel c ihB p { q with row := q.row.set q.rowPos ((w * 16 + d) % M32) }
            (i + 1) ((v * 16 + d) % M32) (by omega) hR2 hI hs (by omega)
        refine ⟨p1, o1, pf, e, qf, f, hstep.trans H1, H2, ?_, H4, H5, H6⟩
        rw [hdrop]
        rw [runB_cons_some hcons H3, List.nil_append]
      | none =>
        obtain ⟨s2, hs2, hpos, hrk⟩ := hexSt_next p.state hs
        have hstep : parseHexGo p c i v =
            some ({ p with rowPos := p.rowPos + 1, state := s2 }, i + 1) := by
          rw [parseHexGo_pos hlt _, hx, hs2]
          rfl
        have hq2 : q.state.next = some s2 := by rw [← hR.1]; exact hs2
        have hcons := consume_hex_delim hqs hw hx hq2
        have hI1 : Inv { p with rowPos := p.rowPos + 1, state := s2 } :=
          ⟨by simpa using hI.1, by simp [hpos, hI.2]⟩
        have hR1 : Rel { p with rowPos := p.rowPos + 1, state := s2 }
            { q with rowPos := q.rowPos + 1, state := s2 } :=
          ⟨rfl, by simp [hR.2.1], by simpa using hR.2.2.1, by simpa using hR.2.2.2⟩
        have hbnd : 3 * (c.length - (i + 1)) +
            rank ({ p with rowPos := p.rowPos + 1, state := s2 } : Parser).state
            < fuel := by
          have : rank s2 = 1 := hrk
          simp only [this]
          omega
        obtain ⟨pf, e, qf, f, H2, H3, H4, H5, H6⟩ := ihB _ _ c (i + 1) hR1 hI1 hbnd
        refine ⟨_, i + 1, pf, e, qf, f, hstep, H2, ?_, H4, H5, H6⟩
        rw [hdrop]
        rw [runB_cons_some hcons H3, List.nil_append]
    · exact auxHex_stop hR hI hlt (by omega)

lemma auxDec_stop {fuel : Nat} {c : List Nat} {p q : Parser} {i v : Nat}
    (hR : Rel p q) (hI : Inv p) (hlen : ¬ i < c.length) (hf : 1 ≤ fuel) :
    ∃ p1 o1 pf e qf f,
      parseDecGo p c i v = some (p1, o1) ∧
      parseLoop fuel p1 c o1 = some (pf, e) ∧
      runB q (c.drop i) = some (qf, f) ∧
      Rel pf qf ∧ Inv pf ∧ normalize e = normalize f := by
  refine ⟨{ p with row := p.row.set p.rowPos v }, c.length, _, [], q, [],
    by rw [parseDecGo_neg hlen _],
    parseLoop_stop _ c (by omega) hf,
    by rw [List.drop_eq_nil_of_le (by omega)]; rfl,
    ⟨hR.1, hR.2.1, by simp [length_set_row, hR.2.2.1], hR.2.2.2⟩,
    ⟨by simp [length_set_row, hI.1], hI.2⟩, rfl⟩

lemma auxDec : ∀ (n fuel : Nat) (c : List Nat), BridgeIH fuel →
    ∀ (p q : Parser) (i v : Nat), c.length - i ≤ n →
    Rel p q → Inv p → isDecSt p.state = true →
    3 * (c.length - i) + 1 ≤ fuel →
    ∃ p1 o1 pf e qf f,
      parseDecGo p c i v = some (p1, o1) ∧
      parseLoop fuel p1 c o1 = some (pf, e) ∧
      runB q (c.drop i) = some (qf, f) ∧
      Rel pf qf ∧ Inv pf ∧ normalize e = normalize f := by
  intro n
  induction n with
  | zero =>
    intro fuel c ihB p q i v hn hR hI hs hb
    exact auxDec_stop hR hI (by omega) (by omega)
  | succ n ihn =>
    intro fuel c ihB p q i v hn hR hI hs hb
    by_cases hlt : i < c.length
    · have hdrop := drop_cons c hlt
      have hqs : isDecSt q.state = true := by rw [← hR.1]; exact hs
      obtain ⟨w, hw⟩ := row_get_some q (inv_of_rel hR hI)
        (by rw [← hR.1]; exact posOf_le_three_of_dec _ hs)
      cases hx : decValue (c.get ⟨i, hlt⟩) with
      | some d =>
        have hstep : parseDecGo p c i v =
            parseDecGo p c (i + 1) ((v * 10 + d) % M32) := by
          rw [parseDecGo_pos hlt _, hx]
        have hcons := consume_dec_digit hqs hw hx
        have hR2 : Rel p { q with row := q.row.set q.rowPos ((w * 10 + d) % M32) } :=
          ⟨hR.1, hR.2.1, hR.2.2.1, by simp [length_set_row, hR.2.2.2]⟩
        obtain ⟨p1, o1, pf, e, qf, f, H1, H2, H3, H4, H5, H6⟩ :=
          ihn fuel c ihB p { q with row := q.row.set q.rowPos ((w * 10 + d) % M32) }
            (i + 1) ((v * 10 + d) % M32) (by omega) hR2 hI hs (by omega)
        refine ⟨p1, o1, pf, e, qf, f, hstep.trans H1, H2, ?_, H4, H5, H6⟩
        rw [hdrop]
        rw [runB_cons_some hcons H3, List.nil_append]
      | none =>
        obtain ⟨s2, hs2, hpos, hrk⟩ := decSt_next p.state hs
        have hstep : parseDecGo p c i v =
            some ({ p with row := p.row.set p.rowPos v, rowPos := p.rowPos + 1, state := s2 }, i + 1) := by
          rw [parseDecGo_pos hlt _, hx, hs2]
          rfl
        have hq2 : q.state.next = some s2 := by rw [← hR.1]; exact hs2
        have hcons := consume_dec_delim hqs hw hx hq2
        have hI1 : Inv { p with row := p.row.set p.rowPos v, rowPos := p.rowPos + 1, state := s2 } :=
          ⟨by simp [length_set_row, hI.1], by simp [hpos, hI.2]⟩
        have hR1 : Rel { p with row := p.row.set p.rowPos v, rowPos := p.rowPos + 1, state := s2 }
            { q with row := q.row.set q.rowPos w, rowPos := q.rowPos + 1, state := s2 } :=
          ⟨rfl, by simp [hR.2.1], by simp [length_set_row, hR.2.2.1],
            by simp [length_set_row, hR.2.2.2]⟩
        have hbnd : 3 * (c.length - (i + 1)) +
            rank ({ p with row := p.row.set p.rowPos v, rowPos := p.rowPos + 1, state := s2 } : Parser).state
            < fuel := by
          have hr3 := rank_le_three s2
          simp only []
          omega
        obtain ⟨pf, e, qf, f, H2, H3, H4, H5, H6⟩ := ihB _ _ c (i + 1) hR1 hI1 hbnd
        refine ⟨_, i + 1, pf, e, qf, f, hstep, H2, ?_, H4, H5, H6⟩
        rw [hdrop]
        rw [runB_cons_some hcons H3, List.nil_append]
    · exact auxDec_stop hR hI hlt (by omega)

lemma auxKw : ∀ (n fuel : Nat) (c : List Nat), BridgeIH fuel →
    ∀ (p q : Parser) (i : Nat), c.length - i ≤ n →
    Rel p q → Inv p → isKwSt p.state = true →
    3 * (c.length - i) + 2 ≤ fuel →
    ∃ p1 o1 pf e qf f,
      skipUntilDigit p c i = some (p1, o1) ∧
      parseLoop fuel p1 c o1 = some (pf, e) ∧
      runB q (c.drop i) = some (qf, f) ∧
      Rel pf qf ∧ Inv pf ∧ normalize e = normalize f := by
  intro n
  induction n with
  | zero =>
    intro fuel c ihB p q i hn hR hI hs hb
    have hlen : ¬ i < c.length := by omega
    refine ⟨p, c.length, p, [], q, [],
      by rw [skipUntilDigit_neg hlen],
      parseLoop_stop _ c (by omega) (by omega),
      by rw [List.drop_eq_nil_of_le (by omega)]; rfl, hR, hI, rfl⟩
  | succ n ihn =>
    intro fuel c ihB p q i hn hR hI hs hb
    by_cases hlt : i < c.length
    · have hdrop := drop_cons c hlt
      have hqs : isKwSt q.state = true := by rw [← hR.1]; exact hs
      by_cases hx : (hexValue (c.get ⟨i, hlt⟩)).isSome = true
      · obtain ⟨s2, hs2, hpos, hrk⟩ := kwSt_next p.state hs
        have hq2 : q.state.next = some s2 := by rw [← hR.1]; exact hs2
        have hstep : skipUntilDigit p c i = some ({ p with state := s2 }, i) := by
          rw [skipUntilDigit_pos hlt, if_pos hx, hs2]
          rfl
        have hcons := consume_kw_hex hqs hq2 hx
        have hI1 : Inv { p with state := s2 } :=
          ⟨by simpa using hI.1, by simp [hpos, hI.2]⟩
        have hR1 : Rel { p with state := s2 } { q with state := s2 } :=
          ⟨rfl, by simp [hR.2.1], by simpa using hR.2.2.1, by simpa using hR.2.2.2⟩
        have hbnd : 3 * (c.length - i) +
            rank ({ p with state := s2 } : Parser).state < fuel := by
          have h1 : rank s2 = 1 := hrk
          simp only [h1]
          omega
        obtain ⟨pf, e, qf, f, H2, H3, H4, H5, H6⟩ := ihB _ _ c i hR1 hI1 hbnd
        refine ⟨_, i, pf, e, qf, f, hstep, H2, ?_, H4, H5, H6⟩
        rw [hdrop] at H3 ⊢
        rw [← runB_congr_head _ hcons] at H3
        exact H3
      · have hstep : skipUntilDigit p c i = skipUntilDigit p c (i + 1) := by
          rw [skipUntilDigit_pos hlt, if_neg hx]
        have hcons := consume_kw_other hqs hx
        obtain ⟨p1, o1, pf, e, qf, f, H1, H2, H3, H4, H5, H6⟩ :=
          ihn fuel c ihB p q (i + 1) (by omega) hR hI hs (by omega)
        refine ⟨p1, o1, pf, e, qf, f, hstep.trans H1, H2, ?_, H4, H5, H6⟩
        rw [hdrop]
        rw [runB_cons_some hcons H3, List.nil_append]
    · refine ⟨p, c.length, p, [], q, [],
        by rw [skipUntilDigit_neg hlt],
        parseLoop_stop _ c (by omega) (by omega),
        by rw [List.drop_eq_nil_of_le (by omega)]; rfl, hR, hI, rfl⟩

lemma auxSkip : ∀ (n fuel : Nat) (c : List Nat), BridgeIH fuel →
    ∀ (p q : Parser) (i : Nat), c.length - i ≤ n →
    Rel p q → Inv p → p.state = State.skip →
    3 * (c.length - i) + 1 ≤ fuel →
    ∃ pf e qf f,
      parseLoop fuel (skipPastNewline p c i).1 c (skipPastNewline p c i).2 =
        some (pf, e) ∧
      runB q (c.drop i) = some (qf, f) ∧
      Rel pf qf ∧ Inv pf ∧ normalize e = normalize f := by
  intro n
  induction n with
  | zero =>
    intro fuel c ihB p q i hn hR hI hs hb
    have hlen : ¬ i < c.length := by omega
    rw [skipPastNewline_neg hlen]
    exact ⟨p, [], q, [], parseLoop_stop _ c (by omega) (by omega),
      by rw [List.drop_eq_nil_of_le (by omega)]; rfl, hR, hI, rfl⟩
  | succ n ihn =>
    intro fuel c ihB p q i hn hR hI hs hb
    by_cases hlt : i < c.length
    · have hdrop := drop_cons c hlt
      have hqs : q.state = State.skip := by rw [← hR.1]; exact hs
      by_cases hx : c.get ⟨i, hlt⟩ = 10
      · rw [skipPastNewline_pos hlt, if_pos hx]
        have hI1 : Inv { p with state := State.start } := by
          refine ⟨by simpa using hI.1, ?_⟩
          have h0 := hI.2
          rw [hs] at h0
          simpa [posOf] using h0
        have hR1 : Rel { p with state := State.start }
            { q with state := State.start } :=
          ⟨rfl, by simp [hR.2.1], by simpa using hR.2.2.1, by simpa using hR.2.2.2⟩
        have hbnd : 3 * (c.length - (i + 1)) +
            rank ({ p with state := State.start } : Parser).state < fuel := by
          have h2 : rank ({ p with state := State.start } : Parser).state = 2 := rfl
          rw [h2]
          omega
        obtain ⟨pf, e, qf, f, H2, H3, H4, H5, H6⟩ := ihB _ _ c (i + 1) hR1 hI1 hbnd
        have hcons : consume q (c.get ⟨i, hlt⟩) =
            some ({ q with state := State.start }, []) := by
          rw [hx]
          exact consume_skip_nl hqs
        refine ⟨pf, e, qf, f, H2, ?_, H4, H5, H6⟩
        rw [hdrop]
        rw [runB_cons_some hcons H3, List.nil_append]
      · rw [skipPastNewline_pos hlt, if_neg hx]
        have hcons := consume_skip_other hqs hx
        obtain ⟨pf, e, qf, f, H2, H3, H4, H5, H6⟩ :=
          ihn fuel c ihB p q (i + 1) (by omega) hR hI hs (by omega)
        refine ⟨pf, e, qf, f, H2, ?_, H4, H5, H6⟩
        rw [hdrop]
        rw [runB_cons_some hcons H3, List.nil_append]
    · rw [skipPastNewline_neg hlt]
      exact ⟨p, [], q, [], parseLoop_stop _ c (by omega) (by omega),
        by rw [List.drop_eq_nil_of_le (by omega)]; rfl, hR, hI, rfl⟩

lemma endSt_rank : ∀ s : State, isEndSt s = true → rank s = 3 := by decide

lemma parseStrGo_shift_stop (p : Parser) (c : List Nat) {o i : Nat}
    (hlen : ¬ i < c.length) (ho : o ≤ i) :
    parseStrGo p c o i = (parseStrGo p c i i).map
      (fun r => (r.1, mapFrag (slice c o i) r.2.1, r.2.2)) := by
  rw [parseStrGo_neg hlen o, parseStrGo_neg hlen i]
  have h1 : slice c i c.length = [] := by
    unfold slice
    rw [Nat.sub_eq_zero_of_le (by omega)]
    rfl
  have h2 : slice c o i = slice c o c.length := slice_past c (by omega)
  simp [mapFrag, h1, ← h2]

/-- Scanning a name from inner position `i` with fragment origin `o`
equals the origin-`i` scan with `chunk[o..i]` prepended to the emitted
fragment. -/
lemma parseStrGo_shift : ∀ (n : Nat) (p : Parser) (c : List Nat) (o i : Nat),
    c.length - i ≤ n → o ≤ i →
    parseStrGo p c o i = (parseStrGo p c i i).map
      (fun r => (r.1, mapFrag (slice c o i) r.2.1, r.2.2)) := by
  intro n
  induction n with
  | zero =>
    intro p c o i hn ho
    exact parseStrGo_shift_stop p c (by omega) ho
  | succ n ihn =>
    intro p c o i hn ho
    by_cases hlt : i < c.length
    · by_cases hx : c.get ⟨i, hlt⟩ = 10
      · rw [parseStrGo_pos hlt _, if_pos hx]
        rw [parseStrGo_pos hlt _, if_pos hx]
        cases hnext : p.state.next with
        | none => rfl
        | some s2 => simp [hnext, mapFrag, slice_refl]
      · have hL : parseStrGo p c o i = parseStrGo p c o (i + 1) := by
          rw [parseStrGo_pos hlt _, if_neg hx]
        have hRR : parseStrGo p c i i = parseStrGo p c i (i + 1) := by
          rw [parseStrGo_pos hlt _, if_neg hx]
        rw [hL, hRR]
        rw [ihn p c o (i + 1) (by omega) (by omega)]
        rw [ihn p c i (i + 1) (by omega) (by omega)]
        rw [slice_split c ho (by omega)]
        cases hY : parseStrGo p c (i + 1) (i + 1) with
        | none => rfl
        | some r => simp [mapFrag_comp]
    · exact parseStrGo_shift_stop p c hlt ho

lemma auxStr_stop {fuel : Nat} {c : List Nat} {p q : Parser} {i : Nat}
    (hR : Rel p q) (hI : Inv p) (hlen : ¬ i < c.length) (hf : 1 ≤ fuel) :
    ∃ p1 t o1 pf e qf f,
      parseStrGo p c i i = some (p1, [Event.onStrValue t], o1) ∧
      parseLoop fuel p1 c o1 = some (pf, e) ∧
      runB q (c.drop i) = some (qf, f) ∧
      Rel pf qf ∧ Inv pf ∧
      (∀ pre, normalize (Event.onStrValue (pre ++ t) :: e) =
              normalize (Event.onStrValue pre :: f)) ∧
      (i < c.length → ∃ s f1, f = Event.onStrValue s :: f1) := by
  have ht : slice c i c.length = [] := by
    unfold slice
    rw [Nat.sub_eq_zero_of_le (by omega)]
    rfl
  refine ⟨p, slice c i c.length, c.length, p, [], q, [],
    by rw [parseStrGo_neg hlen _],
    parseLoop_stop _ c (by omega) hf,
    by rw [List.drop_eq_nil_of_le (by omega)]; rfl,
    hR, hI, ?_, fun h => absurd h hlen⟩
  intro pre
  rw [ht, List.append_nil]

lemma auxStr : ∀ (n fuel : Nat) (c : List Nat), BridgeIH fuel →
    ∀ (p q : Parser) (i : Nat), c.length - i ≤ n →
    Rel p q → Inv p → isStrSt p.state = true →
    3 * (c.length - i) + 1 ≤ fuel →
    ∃ p1 t o1 pf e qf f,
      parseStrGo p c i i = some (p1, [Event.onStrValue t], o1) ∧
      parseLoop fuel p1 c o1 = some (pf, e) ∧
      runB q (c.drop i) = some (qf, f) ∧
      Rel pf qf ∧ Inv pf ∧
      (∀ pre, normalize (Event.onStrValue (pre ++ t) :: e) =
              normalize (Event.onStrValue pre :: f)) ∧
      (i < c.length → ∃ s f1, f = Event.onStrValue s :: f1) := by
  intro n
  induction n with
  | zero =>
    intro fuel c ihB p q i hn hR hI hs hb
    exact auxStr_stop hR hI (by omega) (by omega)
  | succ n ihn =>
    intro fuel c ihB p q i hn hR hI hs hb
    by_cases hlt : i < c.length
    · have hdrop := drop_cons c hlt
      have hqs : isStrSt q.state = true := by rw [← hR.1]; exact hs
      by_cases hx : c.get ⟨i, hlt⟩ = 10
      · obtain ⟨s2, hs2, hpos, hend⟩ := strSt_next p.state hs
        have hq2 : q.state.next = some s2 := by rw [← hR.1]; exact hs2
        have hstep : parseStrGo p c i i =
            some ({ p with state := s2 },
              [Event.onStrValue (slice c i i)], i + 1) := by
          rw [parseStrGo_pos hlt _, if_pos hx, hs2]
          rfl
        have hI1 : Inv { p with state := s2 } :=
          ⟨by simpa using hI.1, by simp [hpos, hI.2]⟩
        have hR1 : Rel { p with state := s2 } { q with state := s2 } :=
          ⟨rfl, by simp [hR.2.1], by simpa using hR.2.2.1, by simpa using hR.2.2.2⟩
        have hbnd : 3 * (c.length - (i + 1)) +
            rank ({ p with state := s2 } : Parser).state < fuel := by
          have h3 : rank s2 = 3 := endSt_rank s2 hend
          simp only [h3]
          omega
        obtain ⟨pf, e, qf, f1, H2, H3, H4, H5, H6⟩ := ihB _ _ c (i + 1) hR1 hI1 hbnd
        have hcons : consume q (c.get ⟨i, hlt⟩) =
            some ({ q with state := s2 }, [Event.onStrValue []]) := by
          rw [hx]
          exact consume_str_nl hqs hq2
        refine ⟨_, slice c i i, i + 1, pf, e, qf,
          [Event.onStrValue []] ++ f1, hstep, H2, ?_, H4, H5, ?_, ?_⟩
        · rw [hdrop]
          exact runB_cons_some hcons H3
        · intro pre
          rw [slice_refl, List.append_nil, List.singleton_append]
          simp only [normalize_cons_str]
          rw [mergeHead_mergeHead, List.append_nil, H6]
        · intro _
          exact ⟨[], f1, by simp⟩
      · obtain ⟨p1, t2, o1, pf, e, qf, f1, H1, H2, H3, H4, H5, H6, H7⟩ :=
          ihn fuel c ihB p q (i + 1) (by omega) hR hI hs (by omega)
        have hshift := parseStrGo_shift n p c i (i + 1) (by omega) (by omega)
        have hstep : parseStrGo p c i i =
            some (p1, [Event.onStrValue (slice c i (i + 1) ++ t2)], o1) := by
          rw [parseStrGo_pos hlt _, if_neg hx, hshift, H1]
          simp [mapFrag]
        have hcons := consume_str_other hqs hx
        refine ⟨p1, slice c i (i + 1) ++ t2, o1, pf, e, qf,
          [Event.onStrValue [c.get ⟨i, hlt⟩]] ++ f1, hstep, H2, ?_, H4, H5, ?_, ?_⟩
        · rw [hdrop]
          exact runB_cons_some hcons H3
        · intro pre
          rw [slice_one c hlt]
          rw [show pre ++ ([c.get ⟨i, hlt⟩] ++ t2) =
                (pre ++ [c.get ⟨i, hlt⟩]) ++ t2 from (List.append_assoc _ _ _).symm]
          rw [H6 (pre ++ [c.get ⟨i, hlt⟩]), List.singleton_append]
          simp only [normalize_cons_str]
          rw [mergeHead_mergeHead]
        · intro _
          exact ⟨[c.get ⟨i, hlt⟩], f1, by simp⟩
    · exact auxStr_stop hR hI hlt (by omega)

lemma onLineEnd_eq (p : Parser) :
    onLineEnd p = (onEnd p, [Event.onLine 0 0 0 0]) := rfl

lemma onFuncEnd_eq (p : Parser) :
    onFuncEnd p = (onEnd p, [Event.onFunc 0 0 0]) := rfl

lemma onFileEnd_eq (p : Parser) :
    onFileEnd p = (onEnd p, [Event.onFile 0]) := rfl

lemma onPublicEnd_eq (p : Parser) :
    onPublicEnd p = (onEnd p, [Event.onPublic 0 0]) := rfl

/-- The bridge theorem: the chunk dispatch loop and the byte machine,
started from row-equivalent parsers, succeed together, end in
row-equivalent parsers, and emit traces with the same normalisation. -/
theorem bridge : ∀ fuel : Nat, BridgeIH fuel := by
  intro fuel
  induction fuel with
  | zero =>
    intro p q c offset hR hI hb
    omega
  | succ fuel ih =>
    intro p q c offset hR hI hb
    by_cases hoff : offset < c.length
    · have hdrop := drop_cons c hoff
      rw [parseLoop, if_pos hoff]
      cases hst : p.state with
      | start =>
        rw [hst] at hb
        rw [show rank State.start = 2 from rfl] at hb
        have hq : q.state = State.start := by rw [← hR.1]; exact hst
        have hpos0 : p.rowPos = 0 := by rw [hI.2, hst]; rfl
        obtain ⟨ch, hch⟩ : ∃ ch, c.get? offset = some ch :=
          ⟨c.get ⟨offset, hoff⟩, List.get?_eq_get hoff⟩
        have hchv : c.get ⟨offset, hoff⟩ = ch :=
          Option.some.inj ((List.get?_eq_get hoff).symm.trans hch)
        rw [hchv] at hdrop
        rw [List.get?_eq_getElem?] at hch
        by_cases hhex : (hexValue ch).isSome = true
        · have hPS : parseStart p c offset =
              some ({ p with state := State.lineHexAddr }, offset) := by
            simp [parseStart, hch, hhex]
          have hI1 : Inv { p with state := State.lineHexAddr } :=
            ⟨by simpa using hI.1, by simp [posOf, hpos0]⟩
          have hR1 : Rel { p with state := State.lineHexAddr }
              { q with state := State.lineHexAddr } :=
            ⟨rfl, by simp [hR.2.1], by simpa using hR.2.2.1, by simpa using hR.2.2.2⟩
          have hbnd : 3 * (c.length - offset) +
              rank ({ p with state := State.lineHexAddr } : Parser).state < fuel := by
            rw [show rank ({ p with state := State.lineHexAddr } : Parser).state = 1
              from rfl]
            omega
          obtain ⟨p1, e, q1, f, H2, H3, H4, H5, H6⟩ := ih _ _ c offset hR1 hI1 hbnd
          refine ⟨p1, e, q1, f, ?_, ?_, H4, H5, H6⟩
          · simp only [hPS]
            exact H2
          · rw [hdrop, runB_congr_head _ (consume_start_hex hq hhex)]
            rw [hdrop] at H3
            exact H3
        · have hPS : parseStart p c offset =
              some ({ p with state := classifyStart ch }, offset + 1) := by
            simp [parseStart, hch, hhex]
          have hcons := consume_start_other hq hhex
          have hI1 : Inv { p with state := classifyStart ch } :=
            ⟨by simpa using hI.1, by simp [posOf_classifyStart, hpos0]⟩
          have hR1 : Rel { p with state := classifyStart ch }
              { q with state := classifyStart ch } :=
            ⟨rfl, by simp [hR.2.1], by simpa using hR.2.2.1, by simpa using hR.2.2.2⟩
          have hbnd : 3 * (c.length - (offset + 1)) +
              rank ({ p with state := classifyStart ch } : Parser).state < fuel := by
            have h3 := rank_le_three ({ p with state := classifyStart ch } : Parser).state
            omega
          obtain ⟨p1, e, q1, f, H2, H3, H4, H5, H6⟩ :=
            ih _ _ c (offset + 1) hR1 hI1 hbnd
          refine ⟨p1, e, q1, f, ?_, ?_, H4, H5, H6⟩
          · simp only [hPS]
            exact H2
          · rw [hdrop]
            rw [runB_cons_some hcons H3, List.nil_append]
      | funcOrFile =>
        rw [hst] at hb
        rw [show rank State.funcOrFile = 1 from rfl] at hb
        have hq : q.state = State.funcOrFile := by rw [← hR.1]; exact hst
        have hpos0 : p.rowPos = 0 := by rw [hI.2, hst]; rfl
        obtain ⟨ch, hch⟩ : ∃ ch, c.get? offset = some ch :=
          ⟨c.get ⟨offset, hoff⟩, List.get?_eq_get hoff⟩
        have hchv : c.get ⟨offset, hoff⟩ = ch :=
          Option.some.inj ((List.get?_eq_get hoff).symm.trans hch)
        rw [hchv] at hdrop
        rw [List.get?_eq_getElem?] at hch
        have hPF : parseFuncOrFile p c offset =
            some ({ p with state := classifyFuncOrFile ch }, offset + 1) := by
          simp [parseFuncOrFile, hch]
        have hcons : consume q ch =
            some ({ q with state := classifyFuncOrFile ch }, []) :=
          consume_funcOrFile hq
        have hI1 : Inv { p with state := classifyFuncOrFile ch } :=
          ⟨by simpa using hI.1, by simp [posOf_classifyFuncOrFile, hpos0]⟩
        have hR1 : Rel { p with state := classifyFuncOrFile ch }
            { q with state := classifyFuncOrFile ch } :=
          ⟨rfl, by simp [hR.2.1], by simpa using hR.2.2.1, by simpa using hR.2.2.2⟩
        have hbnd : 3 * (c.length - (offset + 1)) +
            rank ({ p with state := classifyFuncOrFile ch } : Parser).state < fuel := by
          have h3 := rank_le_three ({ p with state := classifyFuncOrFile ch } : Parser).state
          omega
        obtain ⟨p1, e, q1, f, H2, H3, H4, H5, H6⟩ :=
          ih _ _ c (offset + 1) hR1 hI1 hbnd
        refine ⟨p1, e, q1, f, ?_, ?_, H4, H5, H6⟩
        · simp only [hPF]
          exact H2
        · rw [hdrop]
          rw [runB_cons_some hcons H3, List.nil_append]
      | lineHexAddr =>
        rw [hst] at hb
        rw [show rank State.lineHexAddr = 1 from rfl] at hb
        have hhex : isHexSt p.state = true := by rw [hst]; rfl
        obtain ⟨v, hv⟩ := row_get_some p hI (posOf_le_three_of_hex _ hhex)
        obtain ⟨p1, o1, pf, e, qf, f, H1, H2, H3, H4, H5, H6⟩ :=
          auxHex (c.length - offset) fuel c ih p q offset v le_rfl hR hI hhex
            (by omega)
        have hPH : parseHex p c offset = some (p1, o1) := by
          rw [List.get?_eq_getElem?] at hv
          simp [parseHex, hv, H1]
        refine ⟨pf, e, qf, f, ?_, H3, H4, H5, H6⟩
        simp only [hPH]
        exact H2
      | lineHexSize =>
        rw [hst] at hb
        rw [show rank State.lineHexSize = 1 from rfl] at hb
        have hhex : isHexSt p.state = true := by rw [hst]; rfl
        obtain ⟨v, hv⟩ := row_get_some p hI (posOf_le_three_of_hex _ hhex)
        obtain ⟨p1, o1, pf, e, qf, f, H1, H2, H3, H4, H5, H6⟩ :=
          auxHex (c.length - offset) fuel c ih p q offset v le_rfl hR hI hhex
            (by omega)
        have hPH : parseHex p c offset = some (p1, o1) := by
          rw [List.get?_eq_getElem?] at hv
          simp [parseHex, hv, H1]
        refine ⟨pf, e, qf, f, ?_, H3, H4, H5, H6⟩
        simp only [hPH]
        exact H2
      | funcHexAddr =>
        rw [hst] at hb
        rw [show rank State.funcHexAddr = 1 from rfl] at hb
        have hhex : isHexSt p.state = true := by rw [hst]; rfl
        obtain ⟨v, hv⟩ := row_get_some p hI (posOf_le_three_of_hex _ hhex)
        obtain ⟨p1, o1, pf, e, qf, f, H1, H2, H3, H4, H5, H6⟩ :=
          auxHex (c.length - offset) fuel c ih p q offset v le_rfl hR hI hhex
            (by omega)
        have hPH : parseHex p c offset = some (p1, o1) := by
          rw [List.get?_eq_getElem?] at hv
          simp [parseHex, hv, H1]
        refine ⟨pf, e, qf, f, ?_, H3, H4, H5, H6⟩
        simp only [hPH]
        exact H2
      | funcHexSize =>
        rw [hst] at hb
        rw [show rank State.funcHexSize = 1 from rfl] at hb
        have hhex : isHexSt p.state = true := by rw [hst]; rfl
        obtain ⟨v, hv⟩ := row_get_some p hI (posOf_le_three_of_hex _ hhex)
        obtain ⟨p1, o1, pf, e, qf, f, H1, H2, H3, H4, H5, H6⟩ :=
          auxHex (c.length - offset) fuel c ih p q offset v le_rfl hR hI hhex
            (by omega)
        have hPH : parseHex p c offset = some (p1, o1) := by
          rw [List.get?_eq_getElem?] at hv
          simp [parseHex, hv, H1]
        refine ⟨pf, e, qf, f, ?_, H3, H4, H5, H6⟩
        simp only [hPH]
        exact H2
      | funcHexParams =>
        rw [hst] at hb
        rw [show rank State.funcHexParams = 1 from rfl] at hb
        have hhex : isHexSt p.state = true := by rw [hst]; rfl
        obtain ⟨v, hv⟩ := row_get_some p hI (posOf_le_three_of_hex _ hhex)
        obtain ⟨p1, o1, pf, e, qf, f, H1, H2, H3, H4, H5, H6⟩ :=
          auxHex (c.length - offset) fuel c ih p q offset v le_rfl hR hI hhex
            (by omega)
        have hPH : parseHex p c offset = some (p1, o1) := by
          rw [List.get?_eq_getElem?] at hv
          simp [parseHex, hv, H1]
        refine ⟨pf, e, qf, f, ?_, H3, H4, H5, H6⟩
        simp only [hPH]
        exact H2
      | publicHexAddr =>
        rw [hst] at hb
        rw [show rank State.publicHexAddr = 1 from rfl] at hb
        have hhex : isHexSt p.state = true := by rw [hst]; rfl
        obtain ⟨v, hv⟩ := row_get_some p hI (posOf_le_three_of_hex _ hhex)
        obtain ⟨p1, o1, pf, e, qf, f, H1, H2, H3, H4, H5, H6⟩ :=
          auxHex (c.length - offset) fuel c ih p q offset v le_rfl hR hI hhex
            (by omega)
        have hPH : parseHex p c offset = some (p1, o1) := by
          rw [List.get?_eq_getElem?] at hv
          simp [parseHex, hv, H1]
        refine ⟨pf, e, qf, f, ?_, H3, H4, H5, H6⟩
        simp only [hPH]
        exact H2
      | publicHexParams =>
        rw [hst] at hb
        rw [show rank State.publicHexParams = 1 from rfl] at hb
        have hhex : isHexSt p.state = true := by rw [hst]; rfl
        obtain ⟨v, hv⟩ := row_get_some p hI (posOf_le_three_of_hex _ hhex)
        obtain ⟨p1, o1, pf, e, qf, f, H1, H2, H3, H4, H5, H6⟩ :=
          auxHex (c.length - offset) fuel c ih p q offset v le_rfl hR hI hhex
            (by omega)
        have hPH : parseHex p c offset = some (p1, o1) := by
          rw [List.get?_eq_getElem?] at hv
          simp [parseHex, hv, H1]
        refine ⟨pf, e, qf, f, ?_, H3, H4, H5, H6⟩
        simp only [hPH]
        exact H2
      | lineDecLine =>
        rw [hst] at hb
        rw [show rank State.lineDecLine = 1 from rfl] at hb
        have hdec : isDecSt p.state = true := by rw [hst]; rfl
        obtain ⟨v, hv⟩ := row_get_some p hI (posOf_le_three_of_dec _ hdec)
        obtain ⟨p1, o1, pf, e, qf, f, H1, H2, H3, H4, H5, H6⟩ :=
          auxDec (c.length - offset) fuel c ih p q offset v le_rfl hR hI hdec
            (by omega)
        have hPD : parseDec p c offset = some (p1, o1) := by
          rw [List.get?_eq_getElem?] at hv
          simp [parseDec, hv, H1]
        refine ⟨pf, e, qf, f, ?_, H3, H4, H5, H6⟩
        simp only [hPD]
        exact H2
      | lineDecFile =>
        rw [hst] at hb
        rw [show rank State.lineDecFile = 1 from rfl] at hb
        have hdec : isDecSt p.state = true := by rw [hst]; rfl
        obtain ⟨v, hv⟩ := row_get_some p hI (posOf_le_three_of_dec _ hdec)
        obtain ⟨p1, o1, pf, e, qf, f, H1, H2, H3, H4, H5, H6⟩ :=
          auxDec (c.length - offset) fuel c ih p q offset v le_rfl hR hI hdec
            (by omega)
        have hPD : parseDec p c offset = some (p1, o1) := by
          rw [List.get?_eq_getElem?] at hv
          simp [parseDec, hv, H1]
        refine ⟨pf, e, qf, f, ?_, H3, H4, H5, H6⟩
        simp only [hPD]
        exact H2
      | fileDecIndex =>
        rw [hst] at hb
        rw [show rank State.fileDecIndex = 1 from rfl] at hb
        have hdec : isDecSt p.state = true := by rw [hst]; rfl
        obtain ⟨v, hv⟩ := row_get_some p hI (posOf_le_three_of_dec _ hdec)
        obtain ⟨p1, o1, pf, e, qf, f, H1, H2, H3, H4, H5, H6⟩ :=
          auxDec (c.length - offset) fuel c ih p q offset v le_rfl hR hI hdec
            (by omega)
        have hPD : parseDec p c offset = some (p1, o1) := by
          rw [List.get?_eq_getElem?] at hv
          simp [parseDec, hv, H1]
        refine ⟨pf, e, qf, f, ?_, H3, H4, H5, H6⟩
        simp only [hPD]
        exact H2
      | funcStrName =>
        rw [hst] at hb
        rw [show rank State.funcStrName = 1 from rfl] at hb
        have hstr : isStrSt p.state = true := by rw [hst]; rfl
        obtain ⟨p1, t, o1, pf, e, qf, f, H1, H2, H3, H4, H5, H6, H7⟩ :=
          auxStr (c.length - offset) fuel c ih p q offset le_rfl hR hI hstr
            (by omega)
        have hPS : parseStr p c offset = some (p1, [Event.onStrValue t], o1) := H1
        refine ⟨pf, Event.onStrValue t :: e, qf, f, ?_, H3, H4, H5, ?_⟩
        · simp only [hPS, H2, List.singleton_append]
        · have h1 := H6 []
          rw [List.nil_append] at h1
          rw [h1]
          obtain ⟨s2, f1, rfl⟩ := H7 hoff
          simp only [normalize_cons_str]
          rw [mergeHead_mergeHead, List.nil_append]
      | fileStrName =>
        rw [hst] at hb
        rw [show rank State.fileStrName = 1 from rfl] at hb
        have hstr : isStrSt p.state = true := by rw [hst]; rfl
        obtain ⟨p1, t, o1, pf, e, qf, f, H1, H2, H3, H4, H5, H6, H7⟩ :=
          auxStr (c.length - offset) fuel c ih p q offset le_rfl hR hI hstr
            (by omega)
        have hPS : parseStr p c offset = some (p1, [Event.onStrValue t], o1) := H1
        refine ⟨pf, Event.onStrValue t :: e, qf, f, ?_, H3, H4, H5, ?_⟩
        · simp only [hPS, H2, List.singleton_append]
        · have h1 := H6 []
          rw [List.nil_append] at h1
          rw [h1]
          obtain ⟨s2, f1, rfl⟩ := H7 hoff
          simp only [normalize_cons_str]
          rw [mergeHead_mergeHead, List.nil_append]
      | publicStrName =>
        rw [hst] at hb
        rw [show rank State.publicStrName = 1 from rfl] at hb
        have hstr : isStrSt p.state = true := by rw [hst]; rfl
        obtain ⟨p1, t, o1, pf, e, qf, f, H1, H2, H3, H4, H5, H6, H7⟩ :=
          auxStr (c.length - offset) fuel c ih p q offset le_rfl hR hI hstr
            (by omega)
        have hPS : parseStr p c offset = some (p1, [Event.onStrValue t], o1) := H1
        refine ⟨pf, Event.onStrValue t :: e, qf, f, ?_, H3, H4, H5, ?_⟩
        · simp only [hPS, H2, List.singleton_append]
        · have h1 := H6 []
          rw [List.nil_append] at h1
          rw [h1]
          obtain ⟨s2, f1, rfl⟩ := H7 hoff
          simp only [normalize_cons_str]
          rw [mergeHead_mergeHead, List.nil_append]
      | func =>
        rw [hst] at hb
        rw [show rank State.func = 2 from rfl] at hb
        have hkw : isKwSt p.state = true := by rw [hst]; rfl
        obtain ⟨p1, o1, pf, e, qf, f, H1, H2, H3, H4, H5, H6⟩ :=
          auxKw (c.length - offset) fuel c ih p q offset le_rfl hR hI hkw
            (by omega)
        refine ⟨pf, e, qf, f, ?_, H3, H4, H5, H6⟩
        simp only [H1]
        exact H2
      | file =>
        rw [hst] at hb
        rw [show rank State.file = 2 from rfl] at hb
        have hkw : isKwSt p.state = true := by rw [hst]; rfl
        obtain ⟨p1, o1, pf, e, qf, f, H1, H2, H3, H4, H5, H6⟩ :=
          auxKw (c.length - offset) fuel c ih p q offset le_rfl hR hI hkw
            (by omega)
        refine ⟨pf, e, qf, f, ?_, H3, H4, H5, H6⟩
        simp only [H1]
        exact H2
      | public =>
        rw [hst] at hb
        rw [show rank State.public = 2 from rfl] at hb
        have hkw : isKwSt p.state = true := by rw [hst]; rfl
        obtain ⟨p1, o1, pf, e, qf, f, H1, H2, H3, H4, H5, H6⟩ :=
          auxKw (c.length - offset) fuel c ih p q offset le_rfl hR hI hkw
            (by omega)
        refine ⟨pf, e, qf, f, ?_, H3, H4, H5, H6⟩
        simp only [H1]
        exact H2
      | lineEnd =>
        rw [hst] at hb
        rw [show rank State.lineEnd = 3 from rfl] at hb
        have hq : q.state = State.lineEnd := by rw [← hR.1]; exact hst
        have hRend : Rel (onEnd p) (onEnd q) := ⟨rfl, rfl, rfl, rfl⟩
        have hbnd : 3 * (c.length - offset) + rank (onEnd p).state < fuel := by
          rw [show rank (onEnd p).state = 2 from rfl]
          omega
        obtain ⟨pf, e, qf, f, H2, H3, H4, H5, H6⟩ :=
          ih (onEnd p) (onEnd q) c offset hRend (onEnd_inv p) hbnd
        refine ⟨pf, [Event.onLine 0 0 0 0] ++ e, qf, [Event.onLine 0 0 0 0] ++ f, ?_, ?_, H4, H5,
          normalize_append_congr_right H6 _⟩
        · simp only [onLineEnd_eq, H2]
        · rw [hdrop, runB_fire _ (consume_lineEnd hq)]
          rw [hdrop] at H3
          rw [H3]
          rfl
      | funcEnd =>
        rw [hst] at hb
        rw [show rank State.funcEnd = 3 from rfl] at hb
        have hq : q.state = State.funcEnd := by rw [← hR.1]; exact hst
        have hRend : Rel (onEnd p) (onEnd q) := ⟨rfl, rfl, rfl, rfl⟩
        have hbnd : 3 * (c.length - offset) + rank (onEnd p).state < fuel := by
          rw [show rank (onEnd p).state = 2 from rfl]
          omega
        obtain ⟨pf, e, qf, f, H2, H3, H4, H5, H6⟩ :=
          ih (onEnd p) (onEnd q) c offset hRend (onEnd_inv p) hbnd
        refine ⟨pf, [Event.onFunc 0 0 0] ++ e, qf, [Event.onFunc 0 0 0] ++ f, ?_, ?_, H4, H5,
          normalize_append_congr_right H6 _⟩
        · simp only [onFuncEnd_eq, H2]
        · rw [hdrop, runB_fire _ (consume_funcEnd hq)]
          rw [hdrop] at H3
          rw [H3]
          rfl
      | fileEnd =>
        rw [hst] at hb
        rw [show rank State.fileEnd = 3 from rfl] at hb
        have hq : q.state = State.fileEnd := by rw [← hR.1]; exact hst
        have hRend : Rel (onEnd p) (onEnd q) := ⟨rfl, rfl, rfl, rfl⟩
        have hbnd : 3 * (c.length - offset) + rank (onEnd p).state < fuel := by
          rw [show rank (onEnd p).state = 2 from rfl]
          omega
        obtain ⟨pf, e, qf, f, H2, H3, H4, H5, H6⟩ :=
          ih (onEnd p) (onEnd q) c offset hRend (onEnd_inv p) hbnd
        refine ⟨pf, [Event.onFile 0] ++ e, qf, [Event.onFile 0] ++ f, ?_, ?_, H4, H5,
          normalize_append_congr_right H6 _⟩
        · simp only [onFileEnd_eq, H2]
        · rw [hdrop, runB_fire _ (consume_fileEnd hq)]
          rw [hdrop] at H3
          rw [H3]
          rfl
      | publicEnd =>
        rw [hst] at hb
        rw [show rank State.publicEnd = 3 from rfl] at hb
        have hq : q.state = State.publicEnd := by rw [← hR.1]; exact hst
        have hRend : Rel (onEnd p) (onEnd q) := ⟨rfl, rfl, rfl, rfl⟩
        have hbnd : 3 * (c.length - offset) + rank (onEnd p).state < fuel := by
          rw [show rank (onEnd p).state = 2 from rfl]
          omega
        obtain ⟨pf, e, qf, f, H2, H3, H4, H5, H6⟩ :=
          ih (onEnd p) (onEnd q) c offset hRend (onEnd_inv p) hbnd
        refine ⟨pf, [Event.onPublic 0 0] ++ e, qf, [Event.onPublic 0 0] ++ f, ?_, ?_, H4, H5,
          normalize_append_congr_right H6 _⟩
        · simp only [onPublicEnd_eq, H2]
        · rw [hdrop, runB_fire _ (consume_publicEnd hq)]
          rw [hdrop] at H3
          rw [H3]
          rfl
      | skip =>
        rw [hst] at hb
        rw [show rank State.skip = 1 from rfl] at hb
        obtain ⟨pf, e, qf, f, H2, H3, H4, H5, H6⟩ :=
          auxSkip (c.length - offset) fuel c ih p q offset le_rfl hR hI hst
            (by omega)
        exact ⟨pf, e, qf, f, H2, H3, H4, H5, H6⟩
    · rw [parseLoop, if_neg hoff]
      refine ⟨p, [], q, [], rfl, ?_, hR, hI, rfl⟩
      rw [List.drop_eq_nil_of_le (by omega)]
      rfl

lemma runB_append : ∀ (a b : List Nat) (q q1 : Parser) (f1 : List Event),
    runB q a = some (q1, f1) →
    runB q (a ++ b) = (runB q1 b).map (fun r => (r.1, f1 ++ r.2)) := by
  intro a
  induction a with
  | nil =>
    intro b q q1 f1 h
    rw [show runB q [] = some (q, []) from rfl] at h
    rw [Option.some.injEq, Prod.mk.injEq] at h
    obtain ⟨h1, h2⟩ := h
    subst h1
    subst h2
    rw [List.nil_append]
    cases hx : runB q b with
    | none => rfl
    | some r => simp
  | cons x a ih =>
    intro b q q1 f1 h
    rw [List.cons_append]
    rw [runB] at h ⊢
    cases hc : consume q x with
    | none =>
      rw [hc] at h
      exact absurd h (by simp)
    | some r =>
      simp only [hc] at h ⊢
      cases h1 : runB r.1 a with
      | none =>
        rw [h1] at h
        exact absurd h (by simp)
      | some r1 =>
        simp only [h1, Option.some.injEq, Prod.mk.injEq] at h
        obtain ⟨h2, h3⟩ := h
        subst h2
        subst h3
        rw [ih b r.1 r1.1 r1.2 h1]
        cases h2 : runB r1.1 b with
        | none => rfl
        | some r2 => simp [List.append_assoc]

/-- Composition of the bridge over a list of chunks: feeding the chunks
one `parse` call at a time matches the byte machine over the
concatenated input. -/
theorem runParses_runB : ∀ (chunks : List (List Nat)) (p q : Parser),
    Rel p q → Inv p →
    ∃ p1 E q1 F, runParses p chunks = some (p1, E) ∧
      runB q chunks.flatten = some (q1, F) ∧ Rel p1 q1 ∧ Inv p1 ∧
      normalize E = normalize F := by
  intro chunks
  induction chunks with
  | nil =>
    intro p q hR hI
    exact ⟨p, [], q, [], rfl, rfl, hR, hI, rfl⟩
  | cons c cs ih =>
    intro p q hR hI
    obtain ⟨p1, e1, q1, f1, H1, H2, H3, H4, H5⟩ :=
      bridge (3 * c.length + 4) p q c 0 hR hI
        (by have := rank_le_three p.state; omega)
    rw [List.drop_zero] at H2
    obtain ⟨p2, E, q2, F, G1, G2, G3, G4, G5⟩ := ih p1 q1 H3 H4
    refine ⟨p2, e1 ++ E, q2, f1 ++ F, ?_, ?_, G3, G4,
      normalize_append_congr H5 G5⟩
    · simp only [runParses, Parser.parse, H1, G1]
    · rw [show (c :: cs).flatten = c ++ cs.flatten from rfl,
        runB_append c cs.flatten q q1 f1 H2, G2]
      rfl

/-- The events fired by `finish` depend only on the state (the row was
zeroed before the completion callback reads it). -/
lemma finish_events_eq {p q : Parser} (h : p.state = q.state) :
    (Parser.finish p).2 = (Parser.finish q).2 := by
  have hq : q.state = p.state := h.symm
  cases hst : p.state <;>
    rw [hst] at hq <;>
    simp [Parser.finish, hst, hq, onLineEnd_eq, onFuncEnd_eq, onFileEnd_eq,
      onPublicEnd_eq]

/-- Normalised events of a single-chunk run, expressed through the byte
machine. -/
lemma chunkFull_norm (c : List Nat) :
    ∃ q1 F, runB Parser.new c = some (q1, F) ∧
      (runFullEvents Parser.new [c]).map normalize =
        some (normalize (F ++ (Parser.finish q1).2)) := by
  obtain ⟨p1, E, q1, F, H1, H2, H3, H4, H5⟩ :=
    runParses_runB [c] Parser.new Parser.new (rel_of_inv new_inv) new_inv
  rw [show ([c] : List (List Nat)).flatten = c by simp] at H2
  refine ⟨q1, F, H2, ?_⟩
  rw [show runFullEvents Parser.new [c] = some (E ++ (Parser.finish p1).2)
    from by simp [runFullEvents, H1]]
  simp only [Option.map_some', Option.some.injEq]
  rw [finish_events_eq H3.1]
  exact normalize_append_congr H5 rfl

/-- C1.  Chunk-boundary invariance: feeding any splitting of the input
into consecutive chunks, followed by `finish()`, produces the same
sequence of sink callbacks as feeding the whole input as one chunk,
up to re-fragmentation of `onStrValue` runs (`normalize` concatenates
adjacent fragments, which is exactly the tolerance the claim grants). -/
theorem c1_chunk_invariance (chunks : List (List Nat)) :
    (runFullEvents Parser.new chunks).map normalize =
      (runFullEvents Parser.new [chunks.flatten]).map normalize := by
  obtain ⟨p1, E, q1, F, H1, H2, H3, H4, H5⟩ :=
    runParses_runB chunks Parser.new Parser.new (rel_of_inv new_inv) new_inv
  obtain ⟨q2, F2, G2, G3⟩ := chunkFull_norm chunks.flatten
  rw [H2] at G2
  rw [Option.some.injEq, Prod.mk.injEq] at G2
  obtain ⟨hq, hF⟩ := G2
  rw [show runFullEvents Parser.new chunks = some (E ++ (Parser.finish p1).2)
    from by simp [runFullEvents, H1]]
  rw [G3]
  simp only [Option.map_some', Option.some.injEq]
  rw [finish_events_eq H3.1]
  refine normalize_append_congr ?_ ?_
  · rw [H5, hF]
  · rw [show (Parser.finish q1).2 = (Parser.finish q2).2
      from finish_events_eq (by rw [hq])]

/-- C10.  Totality / no panic: every sequence of `parse` and `finish`
calls on a fresh parser evaluates to `some` result — in the embedding
`none` marks exactly the Rust panics (`row[row_pos]` indexing out of
bounds in `parse_hex`/`parse_dec`) and the undefined behaviour of
`State::next`'s unchecked transmute past the last discriminant.  The
second conjunct records that the transmute is defined exactly on the
states of ordinal at most 21. -/
theorem c10_total_no_panic :
    (∀ calls : List Call, ∃ r, runCalls Parser.new calls = some r) ∧
    (∀ s : State, (State.next s).isSome ↔ stateOrd s ≤ 21) := by
  constructor
  · intro calls
    obtain ⟨p1, e, h, _⟩ := runCalls_total calls Parser.new new_inv
    exact ⟨(p1, e), h⟩
  · decide

/-! ## Numeric accumulation (C8) -/

lemma foldDec_mod_congr : ∀ (ds : List Nat) (a b : Nat),
    a % M32 = b % M32 → foldDec a ds % M32 = foldDec b ds % M32 := by
  intro ds
  induction ds with
  | nil => intro a b h; exact h
  | cons d ds ih =>
    intro a b h
    have h2 : (a * 10 + (d - 48)) % M32 = (b * 10 + (d - 48)) % M32 :=
      Nat.ModEq.add_right (d - 48) (Nat.ModEq.mul_right 10 h)
    exact ih (a * 10 + (d - 48)) (b * 10 + (d - 48)) h2

lemma foldDecM_eq : ∀ (ds : List Nat) (v : Nat), v < M32 →
    foldDecM v ds = foldDec v ds % M32 := by
  intro ds
  induction ds with
  | nil => intro v hv; exact (Nat.mod_eq_of_lt hv).symm
  | cons d ds ih =>
    intro v hv
    have h1 : (v * 10 + (d - 48)) % M32 < M32 :=
      Nat.mod_lt _ (by norm_num [M32])
    rw [show foldDecM v (d :: ds) = foldDecM ((v * 10 + (d - 48)) % M32) ds
      from rfl]
    rw [ih _ h1]
    exact foldDec_mod_congr ds _ _ (Nat.mod_mod_of_dvd _ dvd_rfl)

lemma parseDecGo_cons : ∀ (n : Nat) (p : Parser) (c : List Nat) (x i v : Nat),
    c.length - i ≤ n →
    parseDecGo p (x :: c) (i + 1) v =
      (parseDecGo p c i v).map (fun r => (r.1, r.2 + 1)) := by
  intro n
  induction n with
  | zero =>
    intro p c x i v hn
    have hlen : ¬ i < c.length := by omega
    have hlen2 : ¬ i + 1 < (x :: c).length := by simp; omega
    rw [parseDecGo_neg hlen2 v, parseDecGo_neg hlen v]
    simp
  | succ n ih =>
    intro p c x i v hn
    by_cases hlt : i < c.length
    · have hlt2 : i + 1 < (x :: c).length := by simp; omega
      have hget : (x :: c).get ⟨i + 1, hlt2⟩ = c.get ⟨i, hlt⟩ := rfl
      rw [parseDecGo_pos hlt2 v, hget, parseDecGo_pos hlt v]
      cases hx : decValue (c.get ⟨i, hlt⟩) with
      | some d => exact ih p c x (i + 1) ((v * 10 + d) % M32) (by omega)
      | none =>
        cases hnext : p.state.next with
        | none => rfl
        | some s2 => simp [hnext]
    · have hlen2 : ¬ i + 1 < (x :: c).length := by simp; omega
      rw [parseDecGo_neg hlen2 v, parseDecGo_neg hlt v]
      simp

lemma parseDecGo_digits : ∀ (ds : List Nat) (b : Nat) (p : Parser)
    (s2 : State) (v : Nat),
    (∀ d ∈ ds, decValue d ≠ none) → decValue b = none →
    p.state.next = some s2 →
    parseDecGo p (ds ++ [b]) 0 v =
      some (⟨s2, p.row.set p.rowPos (foldDecM v ds), p.rowPos + 1⟩,
        ds.length + 1) := by
  intro ds
  induction ds with
  | nil =>
    intro b p s2 v hds hb hnext
    rw [List.nil_append, parseDecGo_pos (by simp) v, show ([b] : List Nat).get ⟨0, by simp⟩ = b from rfl, hb, hnext]
    rfl
  | cons d ds ih =>
    intro b p s2 v hds hb hnext
    have hd : decValue d ≠ none := hds d (by simp)
    obtain ⟨dv, hdv⟩ : ∃ dv, decValue d = some dv := by
      cases hx : decValue d with
      | none => exact absurd hx hd
      | some dv => exact ⟨dv, rfl⟩
    have hdv48 : dv = d - 48 := by
      unfold decValue at hdv
      by_cases h : 48 ≤ d ∧ d ≤ 57
      · rw [if_pos h] at hdv
        exact (Option.some.inj hdv).symm
      · rw [if_neg h] at hdv
        exact absurd hdv (by simp)
    have hlt : 0 < ((d :: ds) ++ [b]).length := by simp
    rw [show (d :: ds) ++ [b] = d :: (ds ++ [b]) from rfl]
    rw [parseDecGo_pos (by simp : 0 < (d :: (ds ++ [b])).length) v]
    rw [show (d :: (ds ++ [b])).get ⟨0, by simp⟩ = d from rfl]
    simp only [hdv]
    rw [parseDecGo_cons (ds ++ [b]).length p (ds ++ [b]) d 0
      ((v * 10 + dv) % M32) (by omega)]
    rw [ih b p s2 ((v * 10 + dv) % M32) (fun x hx => hds x (by simp [hx])) hb hnext]
    simp [hdv48]
    rfl

/-- C2.  Counter-evidence at a concrete input: `"1 2 3 4\n"` leaves the
parser in `LineEnd` with the accumulated row `[0, 0, 3, 4]` (the two
decimal fields were committed; the hex fields were not, see C3), yet
the completion that then fires reports `onLine(0,0,0,0)`: the source
calls `on_end()` (zeroing the row) before reading `self.row` for the
callback arguments. -/
theorem c2_completion_reads_zeroed_row :
    runParses Parser.new [bytes "1 2 3 4\n"] =
      some (⟨State.lineEnd, [0, 0, 3, 4], 4⟩, []) ∧
    (Parser.finish ⟨State.lineEnd, [0, 0, 3, 4], 4⟩).2 =
      [Event.onLine 0 0 0 0] ∧
    runFullEvents Parser.new [bytes "1 2 3 4\nX"] =
      some [Event.onLine 0 0 0 0] := by
  refine ⟨by decide, by decide, by decide⟩

/-- C3.  Counter-evidence: scanning `"1a "` within one chunk advances
the cursor and the state but leaves the row slot at 0 (the delimiter
branch of `parse_hex` returns without writing the accumulator), while
the same bytes split as `"1a"` + `" "` do commit `0x1a` because the
chunk-exhaustion branch writes the accumulator back. -/
theorem c3_hex_delimiter_discards_accumulator :
    runParses Parser.new [bytes "1a "] =
      some (⟨State.lineHexSize, [0, 0, 0, 0], 1⟩, []) ∧
    runParses Parser.new [bytes "1a", bytes " "] =
      some (⟨State.lineHexSize, [26, 0, 0, 0], 1⟩, []) := by
  refine ⟨by decide, by decide⟩

/-- C4.  Counter-evidence: the generated line record `"1a 2b 3 0\n"`
produces exactly one callback and no string events, but its arguments
are `onLine(0,0,0,0)`, not the claimed `onLine(0x1a, 0x2b, 3, 0)`. -/
theorem c4_line_record_roundtrip_emits_zeros :
    runFullEvents Parser.new [bytes "1a 2b 3 0\n"] =
      some [Event.onLine 0 0 0 0] := by
  decide

/-- C6.  `finish()` fires exactly the one pending completion callback
when the parser sits in a `*End` state and emits nothing in any other
state; in particular an input ending mid hex digits with no trailing
newline produces no completion event for the partial record. -/
theorem c6_finish_fires_only_pending_end :
    (∀ p : Parser,
      (Parser.finish p).2 =
        match p.state with
        | State.lineEnd => [Event.onLine 0 0 0 0]
        | State.funcEnd => [Event.onFunc 0 0 0]
        | State.fileEnd => [Event.onFile 0]
        | State.publicEnd => [Event.onPublic 0 0]
        | _ => []) ∧
    runFullEvents Parser.new [bytes "1a 2b"] = some [] := by
  constructor
  · intro p
    cases hst : p.state <;>
      simp [Parser.finish, hst, onLineEnd_eq, onFuncEnd_eq, onFileEnd_eq,
        onPublicEnd_eq]
  · decide

/-- C8.  Numeric accumulation wraps modulo `2^32` with no overflow
check: each hex digit step maps the accumulator `v` to
`(v*16 + d) % 2^32`, each decimal digit step maps it to
`(v*10 + d) % 2^32`, and a decimal field whose digit string denotes
`N`, scanned from a zeroed slot up to a delimiter, commits
`decNat ds % 2^32` (i.e. `N mod 2^32`) into the row. -/
theorem c8_accumulation_wraps_mod_2_32 :
    (∀ (p : Parser) (c : List Nat) (i v d : Nat) (h : i < c.length),
      hexValue (c.get ⟨i, h⟩) = some d →
      parseHexGo p c i v = parseHexGo p c (i + 1) ((v * 16 + d) % 4294967296)) ∧
    (∀ (p : Parser) (c : List Nat) (i v d : Nat) (h : i < c.length),
      decValue (c.get ⟨i, h⟩) = some d →
      parseDecGo p c i v = parseDecGo p c (i + 1) ((v * 10 + d) % 4294967296)) ∧
    (∀ (p : Parser) (ds : List Nat) (b : Nat) (s2 : State),
      p.row.get? p.rowPos = some 0 →
      (∀ d ∈ ds, decValue d ≠ none) → decValue b = none →
      p.state.next = some s2 →
      parseDec p (ds ++ [b]) 0 =
        some (⟨s2, p.row.set p.rowPos (decNat ds % 4294967296),
          p.rowPos + 1⟩, ds.length + 1)) := by
  refine ⟨?_, ?_, ?_⟩
  · intro p c i v d h hx
    rw [parseHexGo_pos h v, hx]
    rfl
  · intro p c i v d h hx
    rw [parseDecGo_pos h v, hx]
    rfl
  · intro p ds b s2 hv hds hb hnext
    rw [List.get?_eq_getElem?] at hv
    have h1 : parseDec p (ds ++ [b]) 0 = parseDecGo p (ds ++ [b]) 0 0 := by
      simp [parseDec, hv]
    rw [h1, parseDecGo_digits ds b p s2 0 hds hb hnext]
    rw [show foldDecM 0 ds = foldDec 0 ds % M32
      from foldDecM_eq ds 0 (by norm_num [M32])]
    rfl

/-- C8 witness: the ten-digit decimal string `"4294967299"` denotes
`2^32 + 3`; the committed slot value is `3`. -/
theorem c8_witness :
    decValue 32 = none ∧
    parseDec ⟨State.lineDecLine, [0, 0, 0, 0], 2⟩
        (bytes "4294967299" ++ [32]) 0 =
      some (⟨State.lineDecFile, [0, 0, 3, 0], 3⟩, 11) := by
  refine ⟨by decide, ?_⟩
  have h := c8_accumulation_wraps_mod_2_32.2.2
    ⟨State.lineDecLine, [0, 0, 0, 0], 2⟩ (bytes "4294967299") 32
    State.lineDecFile (by decide) (by decide) (by decide) (by decide)
  rw [h]
  decide

/-- C9.  Immediately after any completion callback the parser equals
the freshly constructed parser — row all zeros, cursor 0, state
`Start` — so a later record can never retain an earlier record's
numeric fields. -/
theorem c9_reset_after_completion (p : Parser) :
    (onLineEnd p).1 = Parser.new ∧ (onFuncEnd p).1 = Parser.new ∧
    (onFileEnd p).1 = Parser.new ∧ (onPublicEnd p).1 = Parser.new :=
  ⟨rfl, rfl, rfl, rfl⟩

/-! ## Unknown-line discard (C7) -/

lemma badFirst_spec {b : Nat} (h : badFirst b = true) :
    hexValue b = none ∧ b ≠ 70 ∧ b ≠ 80 := by
  simp only [badFirst, Bool.and_eq_true, bne_iff_ne, ne_eq,
    Option.isNone_iff_eq_none] at h
  exact ⟨h.1.1, h.1.2, h.2⟩

lemma classifyStart_skip {b : Nat} (h : badFirst b = true) :
    classifyStart b = State.skip := by
  obtain ⟨_, h2, h3⟩ := badFirst_spec h
  simp [classifyStart, h2, h3]

lemma classifyFuncOrFile_skip {b2 : Nat} (h1 : b2 ≠ 85) (h2 : b2 ≠ 73) :
    classifyFuncOrFile b2 = State.skip := by
  simp [classifyFuncOrFile, h1, h2]

lemma start_eta (q : Parser) (hq : q.state = State.start) :
    ({ q with state := State.start } : Parser) = q := by
  cases q with
  | mk s r rp =>
    have hs : s = State.start := hq
    rw [hs]

/-- In `Skip` state the whole line up to and including its newline is
consumed silently, landing back in `Start`. -/
lemma runB_skip_run : ∀ (bs : List Nat) (q : Parser), q.state = State.skip →
    bs.all (fun x => x != 10) = true →
    runB q (bs ++ [10]) = some ({ q with state := State.start }, []) := by
  intro bs
  induction bs with
  | nil =>
    intro q hq _
    rw [List.nil_append]
    exact runB_cons_some (consume_skip_nl hq) rfl
  | cons x bs ih =>
    intro q hq hall
    simp only [List.all_cons, Bool.and_eq_true, bne_iff_ne, ne_eq] at hall
    rw [List.cons_append]
    exact runB_cons_some (consume_skip_other hq hall.1) (ih q hq hall.2)

/-- An unrecognized line is consumed from `Start` back to `Start` with
no events and no change to the parser. -/
lemma runB_badline : ∀ (bs : List Nat) (q : Parser), q.state = State.start →
    badLineB bs = true → runB q (bs ++ [10]) = some (q, []) := by
  intro bs q hq hbad
  cases bs with
  | nil => simp [badLineB] at hbad
  | cons b rest =>
    rw [badLineB] at hbad
    simp only [Bool.and_eq_true, Bool.or_eq_true] at hbad
    obtain ⟨hall, hcase⟩ := hbad
    simp only [List.all_cons, Bool.and_eq_true, bne_iff_ne, ne_eq] at hall
    cases hcase with
    | inl hbf =>
      have hnx : ¬ (hexValue b).isSome = true := by
        rw [(badFirst_spec hbf).1]
        simp
      have hc1 : consume q b = some ({ q with state := State.skip }, []) := by
        rw [consume_start_other hq hnx, classifyStart_skip hbf]
      have hr : runB ({ q with state := State.skip } : Parser) (rest ++ [10]) =
          some (q, []) := by
        rw [runB_skip_run rest ({ q with state := State.skip }) rfl hall.2]
        rw [show ({ ({ q with state := State.skip } : Parser) with
          state := State.start } : Parser) = ({ q with state := State.start } : Parser) from rfl]
        rw [start_eta q hq]
      rw [List.cons_append]
      exact runB_cons_some hc1 hr
    | inr hbs =>
      cases rest with
      | nil => simp [badSecond] at hbs
      | cons b2 rest2 =>
        simp only [badSecond, Bool.and_eq_true, beq_iff_eq, bne_iff_ne,
          ne_eq] at hbs
        obtain ⟨⟨hb70, h85⟩, h73⟩ := hbs
        subst hb70
        have h70 : ¬ (hexValue 70).isSome = true := by decide
        have hc1 : consume q 70 = some ({ q with state := State.funcOrFile }, []) := by
          rw [consume_start_other hq h70]
          rfl
        have hc2 : consume ({ q with state := State.funcOrFile } : Parser) b2 =
            some ({ q with state := State.skip }, []) := by
          rw [consume_funcOrFile rfl, classifyFuncOrFile_skip h85 h73]
        have hall2 : rest2.all (fun x => x != 10) = true := by
          have h := hall.2
          simp only [List.all_cons, Bool.and_eq_true] at h
          exact h.2
        have hr : runB ({ q with state := State.skip } : Parser) (rest2 ++ [10]) =
            some (q, []) := by
          rw [runB_skip_run rest2 ({ q with state := State.skip }) rfl hall2]
          rw [show ({ ({ q with state := State.skip } : Parser) with
            state := State.start } : Parser) = ({ q with state := State.start } : Parser) from rfl]
          rw [start_eta q hq]
        rw [List.cons_append, List.cons_append]
        exact runB_cons_some hc1 (runB_cons_some hc2 hr)

/-- C7.  Unknown-line discard: a line whose first byte is not a
lower-case hex digit, not `'F'`, and not `'P'`, or which starts `'F'`
with a second byte that is neither `'U'` nor `'I'`, is consumed up to
and including its newline with no sink callback — prepending such a
line to any input leaves the (normalised) callback trace unchanged.
In particular `"MODULE foo\nFILE 0 a.c\n"` plus `finish()` yields
exactly `onStrValue "a.c"` then `onFile 0`, nothing for the MODULE
line. -/
theorem c7_unknown_line_discarded :
    (∀ (bs rest : List Nat), badLineB bs = true →
      (runFullEvents Parser.new [(bs ++ [10]) ++ rest]).map normalize =
        (runFullEvents Parser.new [rest]).map normalize) ∧
    runFullEvents Parser.new [bytes "MODULE foo\nFILE 0 a.c\n"] =
      some [Event.onStrValue (bytes "a.c"), Event.onFile 0] := by
  constructor
  · intro bs rest hbad
    obtain ⟨q1, F, H1, H2⟩ := chunkFull_norm ((bs ++ [10]) ++ rest)
    obtain ⟨q2, F2, G1, G2⟩ := chunkFull_norm rest
    have hpre : runB Parser.new (bs ++ [10]) = some (Parser.new, []) :=
      runB_badline bs Parser.new rfl hbad
    have hcat := runB_append (bs ++ [10]) rest Parser.new Parser.new [] hpre
    rw [G1, H1] at hcat
    simp only [Option.map_some', List.nil_append, Option.some.injEq,
      Prod.mk.injEq] at hcat
    obtain ⟨hq, hF⟩ := hcat
    rw [H2, G2, hq, hF]
  · decide

/-- C7 witness: the discard lemma applied at the MODULE line of the
claim's example. -/
theorem c7_witness :
    badLineB (bytes "MODULE foo") = true ∧
    (runFullEvents Parser.new
        [(bytes "MODULE foo" ++ [10]) ++ bytes "FILE 0 a.c\n"]).map normalize =
      (runFullEvents Parser.new [bytes "FILE 0 a.c\n"]).map normalize :=
  ⟨by decide, c7_unknown_line_discarded.1 (bytes "MODULE foo")
    (bytes "FILE 0 a.c\n") (by decide)⟩

/-! ## Fragment/completion ordering (C5)

A well-formedness scanner over event traces: string-value fragments
come in maximal runs, and a run may only be terminated by the
completion callback of a named record (`onFunc`/`onFile`/`onPublic`)
or by the end of the trace (a truncated record) — never by `onLine`,
and never implicitly by another record's fragments. -/

lemma modeOK_false : ∀ s : State, modeOK s false = true := by decide

lemma mode_false_of {s : State} (h : modeOK s true = false) {m : Bool}
    (hm : modeOK s m = true) : m = false := by
  cases m with
  | false => rfl
  | true => rw [h] at hm; exact absurd hm (by simp)

lemma strSt_modeOK : ∀ s : State, isStrSt s = true →
    ∀ m, modeOK s m = true := by decide

lemma strSt_next_modeOK : ∀ s s' : State, isStrSt s = true →
    State.next s = some s' → ∀ m, modeOK s' m = true := by decide

lemma kwSt_next_scan : ∀ s s' : State, isKwSt s = true →
    State.next s = some s' →
    (isHexSt s' = true ∨ isDecSt s' = true) ∧ posOf s' = posOf s := by decide

lemma scanM_append : ∀ (a b : List Event) (m : Bool),
    scanM m (a ++ b) = (scanM m a).bind (fun m2 => scanM m2 b) := by
  intro a
  induction a with
  | nil => intro b m; rfl
  | cons e a ih =>
    intro b m
    cases e <;> cases m <;> simp [scanM, List.cons_append, ih]

lemma scanM_mergeHead (s : List Nat) (r : List Event) (m : Bool) :
    scanM m (mergeHead s r) = scanM true r := by
  cases r with
  | nil => rfl
  | cons e r => cases e <;> rfl

lemma scanM_normalize : ∀ (E : List Event) (m : Bool),
    scanM m (normalize E) = scanM m E := by
  intro E
  induction E with
  | nil => intro m; rfl
  | cons e E ih =>
    intro m
    cases e with
    | onStrValue s => rw [normalize, scanM_mergeHead, ih true]; rfl
    | onLine a b c d =>
      cases m <;> simp only [normalize, scanM, ih]
    | onFunc a b c => simp only [normalize, scanM, ih]
    | onFile a => simp only [normalize, scanM, ih]
    | onPublic a b => simp only [normalize, scanM, ih]

/-- One byte from `Start` always succeeds silently and lands in a
mode-`false` state. -/
lemma consume_from_start (q : Parser) (b : Nat) (hq : q.state = State.start)
    (hI : Inv q) :
    ∃ q', consume q b = some (q', []) ∧ Inv q' ∧
      modeOK q'.state false = true := by
  by_cases hb : (hexValue b).isSome = true
  · obtain ⟨d, hd⟩ := Option.isSome_iff_exists.mp hb
    obtain ⟨v, hv⟩ := row_get_some q hI (by rw [hq]; decide)
    refine ⟨{ q with state := State.lineHexAddr, row := q.row.set q.rowPos ((v * 16 + d) % M32) }, ?_, ?_, modeOK_false _⟩
    · rw [consume_start_hex hq hb]
      exact consume_hex_digit rfl hv hd
    · refine ⟨by simp [length_set_row, hI.1], ?_⟩
      show q.rowPos = posOf State.lineHexAddr
      rw [hI.2, hq]
      rfl
  · refine ⟨_, consume_start_other hq hb, ?_, modeOK_false _⟩
    refine ⟨hI.1, ?_⟩
    show q.rowPos = posOf (classifyStart b)
    rw [posOf_classifyStart, hI.2, hq]
    rfl

/-- One byte in a hex-scanning state: silent, invariant-preserving. -/
lemma consume_scan_hex {q : Parser} (b : Nat) (hI : Inv q)
    (hs : isHexSt q.state = true) :
    ∃ q', consume q b = some (q', []) ∧ Inv q' := by
  obtain ⟨v, hv⟩ := row_get_some q hI (posOf_le_three_of_hex _ hs)
  cases hx : hexValue b with
  | some d =>
    refine ⟨_, consume_hex_digit hs hv hx, ?_⟩
    exact ⟨by simp [length_set_row, hI.1],
      show q.rowPos = posOf q.state from hI.2⟩
  | none =>
    obtain ⟨s', hs', hpos, _⟩ := hexSt_next _ hs
    refine ⟨_, consume_hex_delim hs hv hx hs', ?_⟩
    refine ⟨hI.1, ?_⟩
    show q.rowPos + 1 = posOf s'
    rw [hpos, hI.2]

/-- One byte in a dec-scanning state: silent, invariant-preserving. -/
lemma consume_scan_dec {q : Parser} (b : Nat) (hI : Inv q)
    (hs : isDecSt q.state = true) :
    ∃ q', consume q b = some (q', []) ∧ Inv q' := by
  obtain ⟨v, hv⟩ := row_get_some q hI (posOf_le_three_of_dec _ hs)
  cases hx : decValue b with
  | some d =>
    refine ⟨_, consume_dec_digit hs hv hx, ?_⟩
    exact ⟨by simp [length_set_row, hI.1],
      show q.rowPos = posOf q.state from hI.2⟩
  | none =>
    obtain ⟨s', hs', hpos, _⟩ := decSt_next _ hs
    refine ⟨_, consume_dec_delim hs hv hx hs', ?_⟩
    refine ⟨by simp [length_set_row, hI.1], ?_⟩
    show q.rowPos + 1 = posOf s'
    rw [hpos, hI.2]

/-- One byte in a keyword-trailer state: silent, invariant-preserving. -/
lemma consume_scan_kw {q : Parser} (b : Nat) (hI : Inv q)
    (hs : isKwSt q.state = true) :
    ∃ q', consume q b = some (q', []) ∧ Inv q' := by
  by_cases hb : (hexValue b).isSome = true
  · obtain ⟨s', hs', _, _⟩ := kwSt_next _ hs
    obtain ⟨hsc, hpos⟩ := kwSt_next_scan _ _ hs hs'
    have hI2 : Inv ({ q with state := s' } : Parser) := by
      refine ⟨hI.1, ?_⟩
      show q.rowPos = posOf s'
      rw [hpos, hI.2]
    rw [consume_kw_hex hs hs' hb]
    cases hsc with
    | inl hhex => exact consume_scan_hex b hI2 hhex
    | inr hdec => exact consume_scan_dec b hI2 hdec
  · exact ⟨q, consume_kw_other hs hb, hI⟩

/-- One byte in a string-name state: emits exactly one fragment and
stays in a mode-`true`-compatible state. -/
lemma consume_scan_str {q : Parser} (b : Nat) (m : Bool) (hI : Inv q)
    (hs : isStrSt q.state = true) :
    ∃ q' ev, consume q b = some (q', ev) ∧ scanM m ev = some true ∧
      Inv q' ∧ modeOK q'.state true = true := by
  by_cases hb : b = 10
  · obtain ⟨s', hs', hpos, _⟩ := strSt_next _ hs
    subst hb
    refine ⟨_, _, consume_str_nl hs hs', rfl, ?_, ?_⟩
    · refine ⟨hI.1, ?_⟩
      show q.rowPos = posOf s'
      rw [hpos, hI.2]
    · exact strSt_next_modeOK _ _ hs hs' true
  · exact ⟨q, _, consume_str_other hs hb, rfl, hI, strSt_modeOK _ hs true⟩

/-- Single-byte preservation of the trace discipline: from a state
compatible with scanner mode `m`, consuming any byte yields events the
scanner accepts, ending in a compatible mode. -/
lemma consume_scan (q : Parser) (b : Nat) (m : Bool) (hI : Inv q)
    (hm : modeOK q.state m = true) :
    ∃ q' ev m', consume q b = some (q', ev) ∧ scanM m ev = some m' ∧
      Inv q' ∧ modeOK q'.state m' = true := by
  cases hst : q.state with
  | start =>
    rw [hst] at hm
    have hm0 : m = false := mode_false_of (by decide) hm
    subst hm0
    obtain ⟨q', hc, hI', hmo⟩ := consume_from_start q b hst hI
    exact ⟨q', [], false, hc, rfl, hI', hmo⟩
  | lineHexAddr =>
    rw [hst] at hm
    have hm0 : m = false := mode_false_of (by decide) hm
    subst hm0
    obtain ⟨q', hc, hI'⟩ := consume_scan_hex b hI (by rw [hst]; rfl)
    exact ⟨q', [], false, hc, rfl, hI', modeOK_false _⟩
  | lineHexSize =>
    rw [hst] at hm
    have hm0 : m = false := mode_false_of (by decide) hm
    subst hm0
    obtain ⟨q', hc, hI'⟩ := consume_scan_hex b hI (by rw [hst]; rfl)
    exact ⟨q', [], false, hc, rfl, hI', modeOK_false _⟩
  | funcHexAddr =>
    rw [hst] at hm
    have hm0 : m = false := mode_false_of (by decide) hm
    subst hm0
    obtain ⟨q', hc, hI'⟩ := consume_scan_hex b hI (by rw [hst]; rfl)
    exact ⟨q', [], false, hc, rfl, hI', modeOK_false _⟩
  | funcHexSize =>
    rw [hst] at hm
    have hm0 : m = false := mode_false_of (by decide) hm
    subst hm0
    obtain ⟨q', hc, hI'⟩ := consume_scan_hex b hI (by rw [hst]; rfl)
    exact ⟨q', [], false, hc, rfl, hI', modeOK_false _⟩
  | funcHexParams =>
    rw [hst] at hm
    have hm0 : m = false := mode_false_of (by decide) hm
    subst hm0
    obtain ⟨q', hc, hI'⟩ := consume_scan_hex b hI (by rw [hst]; rfl)
    exact ⟨q', [], false, hc, rfl, hI', modeOK_false _⟩
  | publicHexAddr =>
    rw [hst] at hm
    have hm0 : m = false := mode_false_of (by decide) hm
    subst hm0
    obtain ⟨q', hc, hI'⟩ := consume_scan_hex b hI (by rw [hst]; rfl)
    exact ⟨q', [], false, hc, rfl, hI', modeOK_false _⟩
  | publicHexParams =>
    rw [hst] at hm
    have hm0 : m = false := mode_false_of (by decide) hm
    subst hm0
    obtain ⟨q', hc, hI'⟩ := consume_scan_hex b hI (by rw [hst]; rfl)
    exact ⟨q', [], false, hc, rfl, hI', modeOK_false _⟩
  | lineDecLine =>
    rw [hst] at hm
    have hm0 : m = false := mode_false_of (by decide) hm
    subst hm0
    obtain ⟨q', hc, hI'⟩ := consume_scan_dec b hI (by rw [hst]; rfl)
    exact ⟨q', [], false, hc, rfl, hI', modeOK_false _⟩
  | lineDecFile =>
    rw [hst] at hm
    have hm0 : m = false := mode_false_of (by decide) hm
    subst hm0
    obtain ⟨q', hc, hI'⟩ := consume_scan_dec b hI (by rw [hst]; rfl)
    exact ⟨q', [], false, hc, rfl, hI', modeOK_false _⟩
  | fileDecIndex =>
    rw [hst] at hm
    have hm0 : m = false := mode_false_of (by decide) hm
    subst hm0
    obtain ⟨q', hc, hI'⟩ := consume_scan_dec b hI (by rw [hst]; rfl)
    exact ⟨q', [], false, hc, rfl, hI', modeOK_false _⟩
  | func =>
    rw [hst] at hm
    have hm0 : m = false := mode_false_of (by decide) hm
    subst hm0
    obtain ⟨q', hc, hI'⟩ := consume_scan_kw b hI (by rw [hst]; rfl)
    exact ⟨q', [], false, hc, rfl, hI', modeOK_false _⟩
  | file =>
    rw [hst] at hm
    have hm0 : m = false := mode_false_of (by decide) hm
    subst hm0
    obtain ⟨q', hc, hI'⟩ := consume_scan_kw b hI (by rw [hst]; rfl)
    exact ⟨q', [], false, hc, rfl, hI', modeOK_false _⟩
  | public =>
    rw [hst] at hm
    have hm0 : m = false := mode_false_of (by decide) hm
    subst hm0
    obtain ⟨q', hc, hI'⟩ := consume_scan_kw b hI (by rw [hst]; rfl)
    exact ⟨q', [], false, hc, rfl, hI', modeOK_false _⟩
  | funcOrFile =>
    rw [hst] at hm
    have hm0 : m = false := mode_false_of (by decide) hm
    subst hm0
    refine ⟨_, [], false, consume_funcOrFile hst, rfl, ?_, modeOK_false _⟩
    refine ⟨hI.1, ?_⟩
    show q.rowPos = posOf (classifyFuncOrFile b)
    rw [posOf_classifyFuncOrFile, hI.2, hst]
    rfl
  | skip =>
    rw [hst] at hm
    have hm0 : m = false := mode_false_of (by decide) hm
    subst hm0
    by_cases hb : b = 10
    · subst hb
      refine ⟨_, [], false, consume_skip_nl hst, rfl, ?_, modeOK_false _⟩
      refine ⟨hI.1, ?_⟩
      show q.rowPos = posOf State.start
      rw [hI.2, hst]
      rfl
    · exact ⟨q, [], false, consume_skip_other hst hb, rfl, hI, modeOK_false _⟩
  | funcStrName =>
    obtain ⟨q', ev, hc, hsc, hI', hmo⟩ :=
      consume_scan_str b m hI (by rw [hst]; rfl)
    exact ⟨q', ev, true, hc, hsc, hI', hmo⟩
  | fileStrName =>
    obtain ⟨q', ev, hc, hsc, hI', hmo⟩ :=
      consume_scan_str b m hI (by rw [hst]; rfl)
    exact ⟨q', ev, true, hc, hsc, hI', hmo⟩
  | publicStrName =>
    obtain ⟨q', ev, hc, hsc, hI', hmo⟩ :=
      consume_scan_str b m hI (by rw [hst]; rfl)
    exact ⟨q', ev, true, hc, hsc, hI', hmo⟩
  | lineEnd =>
    rw [hst] at hm
    have hm0 : m = false := mode_false_of (by decide) hm
    subst hm0
    obtain ⟨q', hc, hI', hmo⟩ := consume_from_start (onEnd q) b rfl (onEnd_inv q)
    refine ⟨q', [Event.onLine 0 0 0 0], false, ?_, rfl, hI', hmo⟩
    rw [consume_lineEnd hst, hc]
    rfl
  | funcEnd =>
    obtain ⟨q', hc, hI', hmo⟩ := consume_from_start (onEnd q) b rfl (onEnd_inv q)
    refine ⟨q', [Event.onFunc 0 0 0], false, ?_, rfl, hI', hmo⟩
    rw [consume_funcEnd hst, hc]
    rfl
  | fileEnd =>
    obtain ⟨q', hc, hI', hmo⟩ := consume_from_start (onEnd q) b rfl (onEnd_inv q)
    refine ⟨q', [Event.onFile 0], false, ?_, rfl, hI', hmo⟩
    rw [consume_fileEnd hst, hc]
    rfl
  | publicEnd =>
    obtain ⟨q', hc, hI', hmo⟩ := consume_from_start (onEnd q) b rfl (onEnd_inv q)
    refine ⟨q', [Event.onPublic 0 0], false, ?_, rfl, hI', hmo⟩
    rw [consume_publicEnd hst, hc]
    rfl

/-- The byte machine preserves the trace discipline over any input. -/
lemma runB_scan : ∀ (bs : List Nat) (q : Parser) (m : Bool), Inv q →
    modeOK q.state m = true →
    ∃ q' E m', runB q bs = some (q', E) ∧ scanM m E = some m' ∧
      Inv q' ∧ modeOK q'.state m' = true := by
  intro bs
  induction bs with
  | nil => intro q m hI hm; exact ⟨q, [], m, rfl, rfl, hI, hm⟩
  | cons b bs ih =>
    intro q m hI hm
    obtain ⟨q1, ev, m1, hc, hsc, hI1, hm1⟩ := consume_scan q b m hI hm
    obtain ⟨q2, E2, m2, hr, hsc2, hI2, hm2⟩ := ih q1 m1 hI1 hm1
    refine ⟨q2, ev ++ E2, m2, runB_cons_some hc hr, ?_, hI2, hm2⟩
    rw [scanM_append, hsc]
    exact hsc2

/-- `finish` emits events the scanner accepts from any compatible
mode. -/
lemma finish_scan (q : Parser) (m : Bool) (hm : modeOK q.state m = true) :
    ∃ m', scanM m (Parser.finish q).2 = some m' := by
  cases hst : q.state with
  | lineEnd =>
    rw [hst] at hm
    have hm0 : m = false := mode_false_of (by decide) hm
    subst hm0
    exact ⟨false, by simp [Parser.finish, hst, onLineEnd_eq]; rfl⟩
  | funcEnd => exact ⟨false, by simp [Parser.finish, hst, onFuncEnd_eq]; rfl⟩
  | fileEnd => exact ⟨false, by simp [Parser.finish, hst, onFileEnd_eq]; rfl⟩
  | publicEnd => exact ⟨false, by simp [Parser.finish, hst, onPublicEnd_eq]; rfl⟩
  | start => exact ⟨m, by simp [Parser.finish, hst]; rfl⟩
  | lineHexAddr => exact ⟨m, by simp [Parser.finish, hst]; rfl⟩
  | lineHexSize => exact ⟨m, by simp [Parser.finish, hst]; rfl⟩
  | lineDecLine => exact ⟨m, by simp [Parser.finish, hst]; rfl⟩
  | lineDecFile => exact ⟨m, by simp [Parser.finish, hst]; rfl⟩
  | skip => exact ⟨m, by simp [Parser.finish, hst]; rfl⟩
  | funcOrFile => exact ⟨m, by simp [Parser.finish, hst]; rfl⟩
  | func => exact ⟨m, by simp [Parser.finish, hst]; rfl⟩
  | funcHexAddr => exact ⟨m, by simp [Parser.finish, hst]; rfl⟩
  | funcHexSize => exact ⟨m, by simp [Parser.finish, hst]; rfl⟩
  | funcHexParams => exact ⟨m, by simp [Parser.finish, hst]; rfl⟩
  | funcStrName => exact ⟨m, by simp [Parser.finish, hst]; rfl⟩
  | file => exact ⟨m, by simp [Parser.finish, hst]; rfl⟩
  | fileDecIndex => exact ⟨m, by simp [Parser.finish, hst]; rfl⟩
  | fileStrName => exact ⟨m, by simp [Parser.finish, hst]; rfl⟩
  | public => exact ⟨m, by simp [Parser.finish, hst]; rfl⟩
  | publicHexAddr => exact ⟨m, by simp [Parser.finish, hst]; rfl⟩
  | publicHexParams => exact ⟨m, by simp [Parser.finish, hst]; rfl⟩
  | publicStrName => exact ⟨m, by simp [Parser.finish, hst]; rfl⟩

/-- C5.  Fragment ordering: (1) on every chunked input the full event
trace (parses then `finish`) satisfies the fragment discipline — every
`onStrValue` run is terminated only by the completion callback of a
named record (`onFunc`/`onFile`/`onPublic`) or by the end of the
trace, so one record's name fragments all precede that record's
completion and are never interleaved with another record's; (2) each
name byte is echoed verbatim and in order as a fragment while a name
is being scanned; (3) on `"FUNC 1a 2 3 name\n"` the sink receives the
name fragment strictly before the `onFunc` completion. -/
theorem c5_fragments_precede_completion :
    (∀ chunks : List (List Nat), ∃ E,
      runFullEvents Parser.new chunks = some E ∧ fragOrderOK E = true) ∧
    (∀ (q : Parser) (b : Nat), isStrSt q.state = true → b ≠ 10 →
      consume q b = some (q, [Event.onStrValue [b]])) ∧
    runFullEvents Parser.new [bytes "FUNC 1a 2 3 name\n"] =
      some [Event.onStrValue (bytes "name"), Event.onFunc 0 0 0] := by
  refine ⟨?_, ?_, ?_⟩
  · intro chunks
    obtain ⟨p1, E, q1, F, H1, H2, H3, H4, H5⟩ :=
      runParses_runB chunks Parser.new Parser.new (rel_of_inv new_inv) new_inv
    obtain ⟨q1', F', m', hr, hsc, hI', hm'⟩ :=
      runB_scan chunks.flatten Parser.new false new_inv (modeOK_false _)
    rw [H2] at hr
    rw [Option.some.injEq, Prod.mk.injEq] at hr
    obtain ⟨hq, hF⟩ := hr
    subst hq
    subst hF
    have hE : scanM false E = some m' := by
      rw [← scanM_normalize E false, H5, scanM_normalize F false]
      exact hsc
    refine ⟨E ++ (Parser.finish p1).2, by simp [runFullEvents, H1], ?_⟩
    obtain ⟨m2, hfin⟩ := finish_scan p1 m' (by rw [H3.1]; exact hm')
    unfold fragOrderOK
    rw [scanM_append, hE]
    show (scanM m' (Parser.finish p1).2).isSome = true
    rw [hfin]
    rfl
  · intro q b hs hb
    exact consume_str_other hs hb
  · decide

/-- C5 witness: the name-byte echo applied at a concrete scanner state
and byte (`'b'` = 98). -/
theorem c5_witness :
    isStrSt (Parser.mk State.funcStrName [0, 0, 0, 0] 3).state = true ∧
    (98 : Nat) ≠ 10 ∧
    consume (Parser.mk State.funcStrName [0, 0, 0, 0] 3) 98 =
      some (Parser.mk State.funcStrName [0, 0, 0, 0] 3,
        [Event.onStrValue [98]]) :=
  ⟨by decide, by decide,
    c5_fragments_precede_completion.2.1
      (Parser.mk State.funcStrName [0, 0, 0, 0] 3) 98 (by decide) (by decide)⟩

end Breakpad
